import Mathlib

/-!
# gobfuscate: string-literal obfuscation (`strings.go`)

A shallow embedding of `strings.go` and the properties of its four parts:
the literal selector (`stringObfuscator.Visit` driven by `ast.Walk`), the
evaluator program built in `Obfuscate`, the mask code generator
(`obfuscatedStringCode`) and the splice loop at the end of `Obfuscate`,
together with the per-file driver `ObfuscateStrings`.

Conventions.
* A byte is a `Nat` below 256; byte strings and `[]byte` buffers are
  `List Nat`.  Source text written as a Lean string is turned into its bytes
  by `txt` (all such text is ASCII, one byte per character).
* `token.Pos` is a Go `int`; positions are `Int`.
* `math/rand` is a stream `rand : Nat → Nat`; the generator state is the
  number `k` of values drawn so far, passed explicitly.
* A Go call either returns or panics: see `Outcome`.
-/

namespace Gobfuscate

/-! ## Bytes and text -/

/-- Bytes of an ASCII source text. -/
def txt (s : String) : List Nat := s.toList.map Char.toNat

/-- Lower-case hexadecimal digit, as the verb `%x` prints it. -/
def hexDigit (d : Nat) : Nat := if d < 10 then 48 + d else 87 + d

/-- Text of `fmt.Sprintf("\\x%02x", b)` for a byte `b`: a backslash, an `x`
and two hexadecimal digits. -/
def hexEscape (b : Nat) : List Nat := [92, 120, hexDigit (b / 16), hexDigit (b % 16)]

/-- Concatenation of the escapes of a byte sequence. -/
def escapeAll : List Nat → List Nat
  | [] => []
  | b :: bs => hexEscape b ++ escapeAll bs

/-- Loop of `strconv.Itoa` on a non-negative number: digits are produced from
the least significant one; the first argument bounds the number of rounds. -/
def itoaAux : Nat → Nat → List Nat → List Nat
  | 0, _, acc => acc
  | fuel + 1, n, acc =>
    if n < 10 then (48 + n) :: acc else itoaAux fuel (n / 10) ((48 + n % 10) :: acc)

/-- Decimal text of `strconv.Itoa(n)` for `n ≥ 0`. -/
def Itoa (n : Nat) : List Nat := itoaAux (n + 1) n []

/-! ## The mask code generator: `obfuscatedStringCode` -/

/-- First loop of `obfuscatedStringCode`: `n` rounds, each drawing
`byte(rand.Intn(256))` into the mask and writing its escape to the buffer.
State: the buffer `res`, the mask filled so far, the generator position. -/
def maskLoop (rand : Nat → Nat) : Nat → List Nat → List Nat → Nat → List Nat × List Nat × Nat
  | 0, res, mask, k => (res, mask, k)
  | n + 1, res, mask, k =>
    let m := rand k % 256
    maskLoop rand n (res ++ hexEscape m) (mask ++ [m]) (k + 1)

/-- Second loop of `obfuscatedStringCode`: for each byte `x` of `str` at
index `i`, write the escape of `x ^ mask[i]`. -/
def maskedLoop (mask : List Nat) : List Nat → Nat → List Nat → List Nat
  | [], _, res => res
  | x :: xs, i, res => maskedLoop mask xs (i + 1) (res ++ hexEscape (x ^^^ mask.getD i 0))

/-- The closing text written after the buffer length. -/
def codeTail : List Nat :=
  txt ")\n        for i, m := range mask \x7b\n            res[i] = m ^ maskedStr[i]\n        \x7d\n        return string(res)\n        \x7d())"

/-- Embedding of `obfuscatedStringCode(str)`: the emitted expression and the
generator position after the call. -/
def obfuscatedStringCode (rand : Nat → Nat) (k : Nat) (str : List Nat) : List Nat × Nat :=
  let res0 := txt "(func() string \x7b\n"
  let res1 := res0 ++ txt "mask := []byte(\""
  let (res2, mask, k2) := maskLoop rand str.length res1 [] k
  let res3 := res2 ++ txt "\")\nmaskedStr := []byte(\""
  let res4 := maskedLoop mask str 0 res3
  let res5 := res4 ++ txt "\")\nres := make([]byte, "
  let res6 := res5 ++ Itoa mask.length
  (res6 ++ codeTail, k2)

/-! ### Meaning of the emitted expression -/

/-- Value of a hexadecimal digit character. -/
def hexVal (c : Nat) : Option Nat :=
  if 48 ≤ c ∧ c ≤ 57 then some (c - 48)
  else if 97 ≤ c ∧ c ≤ 102 then some (c - 87)
  else if 65 ≤ c ∧ c ≤ 70 then some (c - 55)
  else none

/-- Bytes denoted by the body of a Go interpreted string literal made of
`\xhh` escapes only (the only form the generator emits). -/
def unescape : List Nat → Option (List Nat)
  | [] => some []
  | 92 :: 120 :: a :: b :: rest =>
    match hexVal a, hexVal b, unescape rest with
    | some x, some y, some r => some ((16 * x + y) :: r)
    | _, _, _ => none
  | _ => none

/-- The loop `for i, m := range mask { res[i] = m ^ maskedStr[i] }` of the
emitted expression; `none` is an index out of range. -/
def reconstructLoop (maskedStr : List Nat) : List Nat → Nat → List Nat → Option (List Nat)
  | [], _, res => some res
  | m :: ms, i, res =>
    if i < res.length then
      match maskedStr[i]? with
      | some c => reconstructLoop maskedStr ms (i + 1) (res.set i (m ^^^ c))
      | none => none
    else none

/-- Value of the emitted expression with the given `mask` and `maskedStr`
literals and buffer length `n`: `res := make([]byte, n)`, the loop, then
`string(res)`. -/
def reconstruct (mask maskedStr : List Nat) (n : Nat) : Option (List Nat) :=
  reconstructLoop maskedStr mask 0 (List.replicate n 0)

/-- The number a decimal text denotes. -/
def decimalValue (digits : List Nat) : Nat :=
  digits.foldl (fun acc c => 10 * acc + (c - 48)) 0

/-- The mask drawn for a string of length `n` starting at generator position `k`. -/
def maskOf (rand : Nat → Nat) (k n : Nat) : List Nat :=
  (List.range n).map (fun i => rand (k + i) % 256)

/-- The ciphertext: byte-wise XOR of the string with the mask. -/
def cipherOf (str mask : List Nat) : List Nat := List.zipWith (· ^^^ ·) str mask

/-! ## Syntax trees and the literal selector -/

/-- The tokens of `go/token` that the selector looks at: literal kinds and
the keywords of a general declaration. -/
inductive Token
  | ILLEGAL | INT | FLOAT | IMAG | CHAR | STRING | IMPORT | CONST | TYPE | VAR
deriving DecidableEq, Repr

/-- An `ast.BasicLit`: position of the literal, its kind and its text, and
the position its method `End` returns, the one after the last byte of the
literal in the file.  That position is recorded by the parser and need not be
`ValuePos + len(Value)`: the carriage returns of a raw literal are not part
of `Value`. -/
structure BasicLit where
  ValuePos : Int
  EndPos : Int
  Kind : Token
  Value : List Nat
deriving DecidableEq, Repr

/-- The method `(*ast.BasicLit).Pos`. -/
def BasicLit.Pos (x : BasicLit) : Int := x.ValuePos

/-- The method `(*ast.BasicLit).End`: the recorded end of the literal. -/
def BasicLit.End (x : BasicLit) : Int := x.EndPos

/-- An `ast.Node`, kept as far as `Visit` tells nodes apart: a basic
literal, a general declaration with its keyword, a struct type, or any other
node; the children are listed in the order `ast.Walk` visits them. -/
inductive Node
  | basicLit (lit : BasicLit)
  | genDecl (Tok : Token) (children : List Node)
  | structType (children : List Node)
  | other (children : List Node)

/-- The receiver of the methods of `strings.go`. -/
structure stringObfuscator where
  Contents : List Nat
  Nodes : List BasicLit
deriving DecidableEq, Repr

/-- Embedding of `stringObfuscator.Visit`; the argument `none` is the nil node
`ast.Walk` passes after the children.  The Boolean says whether the visitor
returned is non-nil, that is whether the walk descends. -/
def Visit (s : stringObfuscator) : Option Node → stringObfuscator × Bool
  | some (.basicLit lit) =>
    if lit.Kind = Token.STRING then ({ s with Nodes := s.Nodes ++ [lit] }, false) else (s, false)
  | some (.genDecl tok _) =>
    if tok = Token.CONST ∨ tok = Token.IMPORT then (s, false) else (s, true)
  | some (.structType _) => (s, false)
  | _ => (s, true)

mutual
/-- The traversal `ast.Walk(s, n)`: call `Visit`; when it returns nil stop,
otherwise walk the children in order and call `Visit(nil)`. -/
def Walk (s : stringObfuscator) : Node → stringObfuscator
  | .basicLit lit =>
    let r := Visit s (some (.basicLit lit))
    if r.2 then (Visit r.1 none).1 else r.1
  | .genDecl tok cs =>
    let r := Visit s (some (.genDecl tok cs))
    if r.2 then (Visit (WalkList r.1 cs) none).1 else r.1
  | .structType cs =>
    let r := Visit s (some (.structType cs))
    if r.2 then (Visit (WalkList r.1 cs) none).1 else r.1
  | .other cs =>
    let r := Visit s (some (.other cs))
    if r.2 then (Visit (WalkList r.1 cs) none).1 else r.1
/-- Walking a list of nodes in order: the children of a node, or the loop
over `file.Decls` in `ObfuscateStrings`. -/
def WalkList (s : stringObfuscator) : List Node → stringObfuscator
  | [] => s
  | n :: ns => WalkList (Walk s n) ns
end

/-! ## `Obfuscate` -/

/-- The method `Less` on two recorded nodes: `s.Nodes[i].Pos() < s.Nodes[j].Pos()`. -/
def Less (a b : BasicLit) : Prop := a.Pos < b.Pos

instance : DecidableRel Less := fun a b => inferInstanceAs (Decidable (a.Pos < b.Pos))

/-- The order `sort.Sort` establishes: `b` is not `Less` than `a`. -/
def NotAfter (a b : BasicLit) : Prop := ¬ Less b a

instance : DecidableRel NotAfter := fun a b => inferInstanceAs (Decidable (¬ Less b a))

/-- The call `sort.Sort(s)`: the nodes are put in the order given by `Less`.
The library routine is taken as an insertion sort, what it runs on short
inputs; on nodes with different positions every sort gives this list. -/
def sortNodes (nodes : List BasicLit) : List BasicLit := nodes.insertionSort NotAfter

/-- Opening text of the evaluator program. -/
def evalHeader : List Nat :=
  txt "\n        package main\n        import \"encoding/gob\"\n\t\timport \"os\"\n        func main() \x7b\n            list := []string\x7b\x7d\n    "

/-- Closing text of the evaluator program. -/
def evalFooter : List Nat :=
  txt "\n\t\t\tgob.NewEncoder(os.Stdout).Encode(list)\n        \x7d\n    "

/-- The loop `for _, n := range s.Nodes { source += ... }`. -/
def evalLoop : List BasicLit → List Nat → List Nat
  | [], source => source
  | n :: ns, source => evalLoop ns (source ++ (txt "list = append(list, " ++ n.Value ++ txt ")\n"))

/-- The evaluator program `source` built by `Obfuscate` from the sorted nodes. -/
def evalSource (nodes : List BasicLit) : List Nat :=
  evalLoop nodes evalHeader ++ evalFooter

/-- A Go `error` value. -/
abbrev GoError := String

/-- How a Go call ends: it returns a value or it panics. -/
inductive Outcome (α : Type)
  | returned (val : α)
  | panicked
deriving DecidableEq, Repr

/-- What the outside world answers to `Obfuscate`: the error of
`ioutil.TempDir`, the error of writing the evaluator program, the captured
standard output and error of `go run`, and the result of gob-decoding. -/
structure Env where
  TempDir : Option GoError
  WriteFile : List Nat → Option GoError
  Run : List Nat → List Nat × Option GoError
  Decode : List Nat → Except GoError (List (List Nat))

/-- The slice expression `data[lo:hi]` on a buffer whose capacity is its
length; `none` is a bounds panic. -/
def slice (data : List Nat) (lo hi : Int) : Option (List Nat) :=
  if 0 ≤ lo ∧ lo ≤ hi ∧ hi ≤ (data.length : Int) then
    some ((data.drop lo.toNat).take (hi.toNat - lo.toNat))
  else none

/-- State of the splice loop: the cursor, the output buffer and the
generator position. -/
structure SpliceState where
  lastIndex : Int
  result : List Nat
  k : Nat
deriving DecidableEq, Repr

/-- The splice loop `for i, node := range s.Nodes` of `Obfuscate`, from
index `i` on. -/
def spliceLoop (rand : Nat → Nat) (data : List Nat) (parsed : List (List Nat)) :
    List BasicLit → Nat → SpliceState → Outcome SpliceState
  | [], _, st => .returned st
  | node :: rest, i, st =>
    match parsed[i]? with
    | none => .panicked
    | some strVal =>
      let startIdx := node.Pos - 1
      let endIdx := node.End - 1
      match slice data st.lastIndex startIdx with
      | none => .panicked
      | some chunk =>
        let code := obfuscatedStringCode rand st.k strVal
        spliceLoop rand data parsed rest (i + 1)
          { lastIndex := endIdx, result := st.result ++ chunk ++ code.1, k := code.2 }

/-- State of the splice loop when it starts: `lastIndex` is 0 and `result`
is empty. -/
def spliceStart (k : Nat) : SpliceState := { lastIndex := 0, result := [], k := k }

/-- Embedding of `stringObfuscator.Obfuscate`, started with the generator at
position `k`: the pair returned (bytes, error) and the generator position
afterwards, or a panic.  The buffer returned beside a nil error is `some`
bytes, of any length; the nil slice returned beside an error is `none`. -/
def Obfuscate (env : Env) (rand : Nat → Nat) (k : Nat) (s : stringObfuscator) :
    Outcome ((Option (List Nat) × Option GoError) × Nat) :=
  let nodes := sortNodes s.Nodes
  let source := evalSource nodes
  match env.TempDir with
  | some err => .returned ((none, some err), k)
  | none =>
    match env.WriteFile source with
    | some err => .returned ((none, some err), k)
    | none =>
      match env.Run source with
      | (_, some err) => .returned ((none, some err), k)
      | (output, none) =>
        match env.Decode output with
        | .error err => .returned ((none, some err), k)
        | .ok parsed =>
          match spliceLoop rand s.Contents parsed nodes 0 (spliceStart k) with
          | .panicked => .panicked
          | .returned st =>
            match slice s.Contents st.lastIndex s.Contents.length with
            | none => .panicked
            | some chunk => .returned ((some (st.result ++ chunk), none), st.k)

/-! ## The driver `ObfuscateStrings` -/

/-- One entry met by `filepath.Walk` with the answers of the outside world
for it: the error handed to the callback, `filepath.Ext(path)`,
`info.IsDir()`, the result of `stringConstsToVar(path)`, of
`parser.ParseFile` (the declarations of the file), of `ioutil.ReadFile`, the
world of `Obfuscate`, and the result of writing the file back. -/
structure FileEntry where
  path : String
  walkErr : Option GoError
  ext : String
  isDir : Bool
  constsToVar : Option GoError
  parse : Except GoError (List Node)
  readFile : Except GoError (List Nat)
  env : Env
  writeBack : List Nat → Option GoError

/-- Result of the callback of `ObfuscateStrings` on one entry: the error it
returns, the bytes handed to `ioutil.WriteFile(path, newCode, 0755)` if that
call is reached, and the generator position. -/
structure StepResult where
  err : Option GoError
  written : Option (List Nat)
  k : Nat
deriving DecidableEq, Repr

/-- The callback passed to `filepath.Walk` in `ObfuscateStrings`;
`GoExtension` is the constant of that name declared elsewhere in the package. -/
def perFile (GoExtension : String) (rand : Nat → Nat) (k : Nat) (f : FileEntry) :
    Outcome StepResult :=
  match f.walkErr with
  | some err => .returned { err := some err, written := none, k := k }
  | none =>
    if f.ext ≠ GoExtension ∨ f.isDir = true then .returned { err := none, written := none, k := k }
    else
      match f.constsToVar with
      | some err => .returned { err := some err, written := none, k := k }
      | none =>
        match f.parse with
        | .error _ => .returned { err := none, written := none, k := k }
        | .ok decls =>
          match f.readFile with
          | .error err => .returned { err := some err, written := none, k := k }
          | .ok contents =>
            let obfuscator := WalkList { Contents := contents, Nodes := [] } decls
            match Obfuscate f.env rand k obfuscator with
            | .panicked => .panicked
            | .returned ((_, some err), k2) => .returned { err := some err, written := none, k := k2 }
            | .returned ((none, none), k2) =>
              .returned { err := f.writeBack [], written := some [], k := k2 }
            | .returned ((some newCode, none), k2) =>
              .returned { err := f.writeBack newCode, written := some newCode, k := k2 }

/-- Embedding of `ObfuscateStrings`: `filepath.Walk` calls the callback on the
entries in order and stops at the first error, which it returns (the errors
of the callback are other than the marker `filepath.SkipDir`).  The second
component lists the files written back, with the bytes written. -/
def ObfuscateStrings (GoExtension : String) (rand : Nat → Nat) :
    List FileEntry → Nat → List (String × List Nat) → Outcome (Option GoError × List (String × List Nat))
  | [], _, log => .returned (none, log)
  | f :: fs, k, log =>
    match perFile GoExtension rand k f with
    | .panicked => .panicked
    | .returned r =>
      let log2 := match r.written with
        | some bytes => log ++ [(f.path, bytes)]
        | none => log
      match r.err with
      | some err => .returned (some err, log2)
      | none => ObfuscateStrings GoExtension rand fs r.k log2

/-- Modelled from the spec: the normaliser `stringConstsToVar`, called by
`ObfuscateStrings` and not among the sources.  The specification (4.5) has
it "return an error if the file cannot be parsed or rewritten"; for an entry
this says: when the file does not parse, the result of the normaliser is an
error. -/
def NormaliserContract (f : FileEntry) : Prop :=
  ∀ e, f.parse = .error e → ∃ e2, f.constsToVar = some e2

/-! ## The splice, as the specification words it -/

/-- The bytes `data[lo:hi]` for natural bounds. -/
def between (data : List Nat) (lo hi : Nat) : List Nat := (data.drop lo).take (hi - lo)

/-- The byte span of a site: start offset `Pos() - 1` and end offset `End() - 1`. -/
def span (n : BasicLit) : Nat × Nat := ((n.Pos - 1).toNat, (n.End - 1).toNat)

/-- The generated expressions of a sequence of decoded values, the generator
going on from one to the next. -/
def exprs (rand : Nat → Nat) : Nat → List (List Nat) → List (List Nat)
  | _, [] => []
  | k, v :: vs => (obfuscatedStringCode rand k v).1 :: exprs rand (k + v.length) vs

/-- Number of random bytes drawn for a sequence of decoded values. -/
def drawn (vs : List (List Nat)) : Nat := (vs.map List.length).sum

/-- The rewritten buffer in the words of the specification: from the cursor,
`data[cursor:start_1] ++ expr_1 ++ data[end_1:start_2] ++ expr_2 ++ ... ++
data[end_n:]`. -/
def spliced (data : List Nat) : Nat → List (Nat × Nat) → List (List Nat) → List Nat
  | cur, (s, e) :: spans, x :: xs => between data cur s ++ x ++ spliced data e spans xs
  | cur, _, _ => data.drop cur

/-- The bytes outside the spans, in order: `data[cursor:start_1] ++
data[end_1:start_2] ++ ... ++ data[end_n:]`. -/
def outside (data : List Nat) : Nat → List (Nat × Nat) → List Nat
  | cur, (s, e) :: spans => between data cur s ++ outside data e spans
  | cur, [] => data.drop cur

/-- The offset of an indexed byte lies in none of the spans. -/
def offSpans (spans : List (Nat × Nat)) (ib : Nat × Nat) : Bool :=
  spans.all (fun se => !(decide (se.1 ≤ ib.1) && decide (ib.1 < se.2)))

/-- The bytes of `data` whose offset lies in none of the spans, picked one by
one in order. -/
def keepOutside (data : List Nat) (spans : List (Nat × Nat)) : List Nat :=
  (data.enum.filter (offSpans spans)).map Prod.snd

/-- The sites lie in the buffer one after the other, seen from a cursor:
`cursor ≤ start_1`, `start_i ≤ end_i ≤ start_(i+1)` and `end_n ≤ len(data)`,
with `start = Pos() - 1` and `end = End() - 1`. -/
def InsideFrom (data : List Nat) : Int → List BasicLit → Prop
  | cur, [] => cur ≤ (data.length : Int)
  | cur, n :: ns => cur ≤ n.Pos - 1 ∧ n.Pos ≤ n.End ∧ InsideFrom data (n.End - 1) ns

instance InsideFrom.dec (data : List Nat) : ∀ cur nodes, Decidable (InsideFrom data cur nodes)
  | cur, [] => inferInstanceAs (Decidable (cur ≤ (data.length : Int)))
  | _, n :: ns => @instDecidableAnd _ _ _ (@instDecidableAnd _ _ _ (InsideFrom.dec data (n.End - 1) ns))

/-! ## The sites, as the specification words them -/

/-- The children of a node, in the order `ast.Walk` visits them. -/
def Node.children : Node → List Node
  | .basicLit _ => []
  | .genDecl _ cs => cs
  | .structType cs => cs
  | .other cs => cs

/-- The node reached from a node by a path of child indices. -/
def nodeAt : Node → List Nat → Option Node
  | n, [] => some n
  | n, i :: p =>
    match n.children[i]? with
    | some c => nodeAt c p
    | none => none

/-- A node that shields what is below it: a general declaration with token
`CONST` or `IMPORT`, or a struct type. -/
def Node.shields : Node → Bool
  | .genDecl tok _ => decide (tok = Token.CONST ∨ tok = Token.IMPORT)
  | .structType _ => true
  | _ => false

/-- The node at path `p` below `root` is the basic literal `lit`, of kind
`STRING`, and no node strictly above it on the path shields. -/
def Eligible (root : Node) (p : List Nat) (lit : BasicLit) : Prop :=
  nodeAt root p = some (.basicLit lit) ∧ lit.Kind = Token.STRING ∧
    ∀ q r a, p = q ++ r → r ≠ [] → nodeAt root q = some a → a.shields = false

mutual
/-- The eligible literals below a node with their paths, in source order. -/
def sites : Node → List (List Nat × BasicLit)
  | .basicLit lit => if lit.Kind = Token.STRING then [([], lit)] else []
  | .genDecl tok cs => if tok = Token.CONST ∨ tok = Token.IMPORT then [] else sitesList 0 cs
  | .structType _ => []
  | .other cs => sitesList 0 cs
/-- The eligible literals below the nodes of a list, the first node having
index `i`. -/
def sitesList : Nat → List Node → List (List Nat × BasicLit)
  | _, [] => []
  | i, c :: cs => (sites c).map (fun pl => (i :: pl.1, pl.2)) ++ sitesList (i + 1) cs
end

/-- A function with a string literal in its body, next to an import, a
constant group and a struct type with a field tag. -/
def sampleDecls : List Node :=
  [ .genDecl Token.IMPORT [.other [.basicLit { ValuePos := 20, EndPos := 24, Kind := Token.STRING, Value := txt "\"os\"" }]],
    .genDecl Token.CONST [.other [.basicLit { ValuePos := 40, EndPos := 43, Kind := Token.STRING, Value := txt "\"c\"" }]],
    .genDecl Token.TYPE [.other [.structType [.other [.basicLit
      { ValuePos := 70, EndPos := 75, Kind := Token.STRING, Value := txt "\"tag\"" }]]]],
    .other [.other [.basicLit { ValuePos := 90, EndPos := 91, Kind := Token.INT, Value := txt "1" },
                    .basicLit { ValuePos := 95, EndPos := 99, Kind := Token.STRING, Value := txt "\"hi\"" }]] ]

/-! ## Sample inputs -/

/-- An outside world in which every step of `Obfuscate` succeeds and the
evaluator program prints the given strings. -/
def okEnv (parsed : List (List Nat)) : Env :=
  { TempDir := none
    WriteFile := fun _ => none
    Run := fun _ => ([], none)
    Decode := fun _ => .ok parsed }

/-- The line `greeting = "hi"` with its one literal, at offset 11. -/
def greetingFile : stringObfuscator :=
  { Contents := txt "greeting = \"hi\""
    Nodes := [{ ValuePos := 12, EndPos := 16, Kind := Token.STRING, Value := txt "\"hi\"" }] }

/-- The line ``x = `a\r\nb` `` with its raw literal: the carriage return is
in the file and not in `Value`, so the literal ends one byte after
`ValuePos + len(Value)`. -/
def rawLiteralFile : stringObfuscator :=
  { Contents := txt "x = `a\r\nb`"
    Nodes := [{ ValuePos := 5, EndPos := 11, Kind := Token.STRING, Value := txt "`a\nb`" }] }

/-- The line `f("a", "b")` with its two literals recorded in reverse order. -/
def twoLiterals : stringObfuscator :=
  { Contents := txt "f(\"a\", \"b\")"
    Nodes := [{ ValuePos := 8, EndPos := 11, Kind := Token.STRING, Value := txt "\"b\"" },
              { ValuePos := 3, EndPos := 6, Kind := Token.STRING, Value := txt "\"a\"" }] }

/-- A file with the extension of Go sources that does not parse; the
normaliser reports it. -/
def badFile : FileEntry :=
  { path := "bad.go", walkErr := none, ext := ".go", isDir := false
    constsToVar := some "expected package"
    parse := .error "expected package", readFile := .ok (txt "not go")
    env := okEnv [], writeBack := fun _ => none }

/-- A file whose evaluator program fails to run. -/
def failingFile : FileEntry :=
  { path := "fail.go", walkErr := none, ext := ".go", isDir := false, constsToVar := none
    parse := .ok [], readFile := .ok (txt "package p\n")
    env := { TempDir := none, WriteFile := fun _ => none, Run := fun _ => ([], some "exit status 1"),
             Decode := fun _ => .ok [] }
    writeBack := fun _ => none }

/-! ## Auxiliary notions of the proofs -/

/-- What follows a double quote of the emitted text: one of the two literal
bodies `E1`, `E2` with its closing quote, `)` and a newline; or, after a
closing quote, `)` and a newline. -/
def QuoteOpens (E1 E2 t : List Nat) : Prop :=
  (∃ r, t = E1 ++ 34 :: 41 :: 10 :: r) ∨ (∃ r, t = E2 ++ 34 :: 41 :: 10 :: r) ∨
    (∃ r, t = 41 :: 10 :: r)

/-- Every double quote of the text is followed as `QuoteOpens` says. -/
def QuotesGuarded (E1 E2 : List Nat) : List Nat → Prop
  | [] => True
  | c :: t => (c = 34 → QuoteOpens E1 E2 t) ∧ QuotesGuarded E1 E2 t

/-- A lower-case hexadecimal digit character. -/
def isLowerHex (c : Nat) : Bool := (decide (48 ≤ c) && decide (c ≤ 57)) || (decide (97 ≤ c) && decide (c ≤ 102))

/-- The text is a whole run of escapes `\xhh` with lower-case digits. -/
def hexRun : List Nat → Bool
  | [] => true
  | 92 :: 120 :: a :: b :: rest => isLowerHex a && isLowerHex b && hexRun rest
  | _ => false

/-- Spans in natural numbers lying one after the other from a cursor. -/
def SpansFrom (len : Nat) : Nat → List (Nat × Nat) → Prop
  | cur, [] => cur ≤ len
  | cur, (s, e) :: spans => cur ≤ s ∧ s ≤ e ∧ SpansFrom len e spans

instance : IsTotal BasicLit NotAfter :=
  ⟨fun a b => by unfold NotAfter Less; omega⟩

instance : IsTrans BasicLit NotAfter :=
  ⟨fun a b c h1 h2 => by unfold NotAfter Less at *; omega⟩

/-! ## Lemmas on the mask code generator -/

theorem maskOf_zero (rand : Nat → Nat) (k : Nat) : maskOf rand k 0 = [] := rfl

theorem maskOf_succ (rand : Nat → Nat) (k n : Nat) :
    maskOf rand k (n + 1) = (rand k % 256) :: maskOf rand (k + 1) n := by
  unfold maskOf
  rw [List.range_succ_eq_map]
  simp only [List.map_cons, List.map_map, Nat.add_zero]
  congr 1
  apply List.map_congr_left
  intro i _
  simp only [Function.comp_apply]
  congr 2
  omega

theorem maskOf_length (rand : Nat → Nat) (k n : Nat) : (maskOf rand k n).length = n := by
  simp [maskOf]

theorem maskOf_lt (rand : Nat → Nat) (k n : Nat) : ∀ m ∈ maskOf rand k n, m < 256 := by
  intro m hm
  simp only [maskOf, List.mem_map] at hm
  obtain ⟨i, _, rfl⟩ := hm
  exact Nat.mod_lt _ (by decide)

theorem escapeAll_append (xs ys : List Nat) :
    escapeAll (xs ++ ys) = escapeAll xs ++ escapeAll ys := by
  induction xs with
  | nil => rfl
  | cons x xs ih => simp [escapeAll, ih]

theorem maskLoop_eq (rand : Nat → Nat) (n : Nat) (res mask : List Nat) (k : Nat) :
    maskLoop rand n res mask k =
      (res ++ escapeAll (maskOf rand k n), mask ++ maskOf rand k n, k + n) := by
  induction n generalizing res mask k with
  | zero => simp [maskLoop, maskOf_zero, escapeAll]
  | succ n ih =>
    rw [maskLoop, ih, maskOf_succ]
    simp only [escapeAll, List.append_assoc, List.singleton_append, Prod.mk.injEq, true_and]
    omega

theorem maskedLoop_eq (mask : List Nat) (xs : List Nat) (i : Nat) (res : List Nat)
    (h : i + xs.length ≤ mask.length) :
    maskedLoop mask xs i res = res ++ escapeAll (cipherOf xs (mask.drop i)) := by
  induction xs generalizing i res with
  | nil => simp [maskedLoop, cipherOf, escapeAll]
  | cons x xs ih =>
    simp only [List.length_cons] at h
    have hi : i < mask.length := by omega
    rw [maskedLoop, ih (i + 1) _ (by omega)]
    rw [List.drop_eq_getElem_cons hi]
    simp only [cipherOf, List.zipWith_cons_cons, escapeAll, List.append_assoc]
    rw [List.getD_eq_getElem _ _ hi]

/-- The emitted text, piece by piece. -/
theorem obfuscatedStringCode_fst (rand : Nat → Nat) (k : Nat) (str : List Nat) :
    (obfuscatedStringCode rand k str).1 =
      txt "(func() string \x7b\n" ++ txt "mask := []byte(\"" ++
        escapeAll (maskOf rand k str.length) ++ txt "\")\nmaskedStr := []byte(\"" ++
        escapeAll (cipherOf str (maskOf rand k str.length)) ++
        txt "\")\nres := make([]byte, " ++ Itoa str.length ++ codeTail := by
  unfold obfuscatedStringCode
  simp only [maskLoop_eq, List.nil_append]
  rw [maskedLoop_eq _ _ _ _ (by simp [maskOf_length])]
  simp [maskOf_length]

theorem obfuscatedStringCode_snd (rand : Nat → Nat) (k : Nat) (str : List Nat) :
    (obfuscatedStringCode rand k str).2 = k + str.length := by
  unfold obfuscatedStringCode
  simp only [maskLoop_eq]

theorem hexVal_hexDigit (d : Nat) (h : d < 16) : hexVal (hexDigit d) = some d := by
  interval_cases d <;> rfl

theorem unescape_escapeAll (bs : List Nat) (h : ∀ b ∈ bs, b < 256) :
    unescape (escapeAll bs) = some bs := by
  induction bs with
  | nil => rfl
  | cons b bs ih =>
    have hb : b < 256 := h b (List.mem_cons_self _ _)
    have ih2 := ih (fun x hx => h x (List.mem_cons_of_mem _ hx))
    have e : escapeAll (b :: bs) =
        92 :: 120 :: hexDigit (b / 16) :: hexDigit (b % 16) :: escapeAll bs := rfl
    rw [e, unescape, hexVal_hexDigit (b / 16) (by omega), hexVal_hexDigit (b % 16) (by omega), ih2]
    simp only [Option.some.injEq, List.cons.injEq, and_true]
    omega

theorem cipherOf_length (str mask : List Nat) (h : mask.length = str.length) :
    (cipherOf str mask).length = str.length := by
  simp [cipherOf, h]

theorem cipherOf_lt (str mask : List Nat) (hs : ∀ b ∈ str, b < 256) (hm : ∀ b ∈ mask, b < 256) :
    ∀ c ∈ cipherOf str mask, c < 256 := by
  induction str generalizing mask with
  | nil => simp [cipherOf]
  | cons x xs ih =>
    cases mask with
    | nil => simp [cipherOf]
    | cons m ms =>
      intro c hc
      simp only [cipherOf, List.zipWith_cons_cons, List.mem_cons] at hc
      rcases hc with rfl | hc
      · exact Nat.xor_lt_two_pow (n := 8) (hs x (List.mem_cons_self _ _)) (hm m (List.mem_cons_self _ _))
      · exact ih ms (fun b hb => hs b (List.mem_cons_of_mem _ hb))
          (fun b hb => hm b (List.mem_cons_of_mem _ hb)) c hc

theorem reconstructLoop_eq (maskedStr ms pre suf : List Nat)
    (h1 : suf.length = ms.length) (h2 : pre.length + ms.length = maskedStr.length) :
    reconstructLoop maskedStr ms pre.length (pre ++ suf) =
      some (pre ++ List.zipWith (· ^^^ ·) ms (maskedStr.drop pre.length)) := by
  induction ms generalizing pre suf with
  | nil =>
    cases suf with
    | nil => simp [reconstructLoop]
    | cons a t => simp at h1
  | cons m ms ih =>
    cases suf with
    | nil => simp at h1
    | cons a t =>
      simp only [List.length_cons] at h1 h2
      have hi : pre.length < maskedStr.length := by omega
      rw [reconstructLoop]
      simp only [List.length_append, List.length_cons]
      rw [if_pos (by omega), List.getElem?_eq_getElem hi]
      simp only []
      have hset : (pre ++ a :: t).set pre.length (m ^^^ maskedStr[pre.length]) =
          (pre ++ [m ^^^ maskedStr[pre.length]]) ++ t := by
        simp [List.set_append]
      rw [hset]
      have hlen : (pre ++ [m ^^^ maskedStr[pre.length]]).length = pre.length + 1 := by simp
      rw [← hlen, ih (pre ++ [m ^^^ maskedStr[pre.length]]) t (by omega) (by rw [hlen]; omega)]
      rw [hlen, List.drop_eq_getElem_cons hi]
      simp only [List.zipWith_cons_cons, List.append_assoc, List.singleton_append]

theorem reconstruct_eq (mask maskedStr : List Nat) (h : mask.length = maskedStr.length) :
    reconstruct mask maskedStr mask.length = some (List.zipWith (· ^^^ ·) mask maskedStr) := by
  have := reconstructLoop_eq maskedStr mask [] (List.replicate mask.length 0) (by simp) (by simpa using h)
  simpa [reconstruct] using this

theorem xor_cipherOf (str mask : List Nat) (h : mask.length = str.length) :
    List.zipWith (· ^^^ ·) mask (cipherOf str mask) = str := by
  induction str generalizing mask with
  | nil => simp [cipherOf]
  | cons x xs ih =>
    cases mask with
    | nil => simp at h
    | cons m ms =>
      simp only [List.length_cons, Nat.add_right_cancel_iff] at h
      simp only [cipherOf, List.zipWith_cons_cons, List.cons.injEq]
      refine ⟨?_, ih ms h⟩
      rw [Nat.xor_comm x m, ← Nat.xor_assoc, Nat.xor_self, Nat.zero_xor]

theorem foldl_decimal (digits : List Nat) (a : Nat) :
    digits.foldl (fun acc c => 10 * acc + (c - 48)) a =
      a * 10 ^ digits.length + decimalValue digits := by
  induction digits generalizing a with
  | nil => simp [decimalValue]
  | cons d ds ih =>
    unfold decimalValue
    simp only [List.foldl_cons, List.length_cons]
    rw [ih, ih (10 * 0 + (d - 48))]
    ring

theorem decimalValue_cons (d : Nat) (ds : List Nat) :
    decimalValue (d :: ds) = (d - 48) * 10 ^ ds.length + decimalValue ds := by
  have := foldl_decimal ds (10 * 0 + (d - 48))
  simpa [decimalValue] using this

theorem decimalValue_itoaAux (fuel n : Nat) (acc : List Nat) (h : n < 10 ^ fuel) :
    decimalValue (itoaAux fuel n acc) = n * 10 ^ acc.length + decimalValue acc := by
  induction fuel generalizing n acc with
  | zero =>
    have : n = 0 := by simpa using h
    subst this
    simp [itoaAux]
  | succ fuel ih =>
    rw [itoaAux]
    split
    · rw [decimalValue_cons]
      simp
    · have hlt : n / 10 < 10 ^ fuel := by
        rw [Nat.div_lt_iff_lt_mul (by decide)]
        rw [pow_succ] at h
        exact h
      rw [ih (n / 10) _ hlt, decimalValue_cons]
      simp only [List.length_cons, Nat.add_sub_cancel_left, pow_succ]
      have hdm := Nat.div_add_mod n 10
      calc n / 10 * (10 ^ acc.length * 10) + (n % 10 * 10 ^ acc.length + decimalValue acc)
          = (10 * (n / 10) + n % 10) * 10 ^ acc.length + decimalValue acc := by ring
        _ = n * 10 ^ acc.length + decimalValue acc := by rw [hdm]

theorem decimalValue_Itoa (n : Nat) : decimalValue (Itoa n) = n := by
  unfold Itoa
  have h1 : n < 10 ^ n := Nat.lt_pow_self (by decide) n
  have h2 : 10 ^ n ≤ 10 ^ (n + 1) := Nat.pow_le_pow_right (by decide) (Nat.le_succ n)
  rw [decimalValue_itoaAux (n + 1) n [] (Nat.lt_of_lt_of_le h1 h2)]
  simp [decimalValue]

/-! ## The mask code generator: round trip -/

/-- C1. Round trip of the mask generator: the text emitted for a byte string
`s` consists of the fixed pieces, the escapes of the drawn mask `m` and the
escapes of the ciphertext `c`; `c` has the length of `s` and `c[i] = s[i] XOR
m[i]`; both literals denote `m` and `c`; the buffer length printed is
`len(s)`; and the reconstruction loop over a buffer of that length yields
exactly `s`. -/
theorem obfuscatedStringCode_round_trip (rand : Nat → Nat) (k : Nat) (s : List Nat)
    (hs : ∀ b ∈ s, b < 256) :
    (obfuscatedStringCode rand k s).1 =
        txt "(func() string \x7b\n" ++ txt "mask := []byte(\"" ++
          escapeAll (maskOf rand k s.length) ++ txt "\")\nmaskedStr := []byte(\"" ++
          escapeAll (cipherOf s (maskOf rand k s.length)) ++
          txt "\")\nres := make([]byte, " ++ Itoa s.length ++ codeTail
      ∧ (maskOf rand k s.length).length = s.length
      ∧ (cipherOf s (maskOf rand k s.length)).length = s.length
      ∧ (∀ i, i < s.length → ∃ x m, s[i]? = some x ∧ (maskOf rand k s.length)[i]? = some m ∧
          (cipherOf s (maskOf rand k s.length))[i]? = some (x ^^^ m))
      ∧ unescape (escapeAll (maskOf rand k s.length)) = some (maskOf rand k s.length)
      ∧ unescape (escapeAll (cipherOf s (maskOf rand k s.length))) =
          some (cipherOf s (maskOf rand k s.length))
      ∧ decimalValue (Itoa s.length) = s.length
      ∧ reconstruct (maskOf rand k s.length) (cipherOf s (maskOf rand k s.length)) s.length =
          some s := by
  have hml := maskOf_length rand k s.length
  have hcl := cipherOf_length s _ hml
  refine ⟨obfuscatedStringCode_fst rand k s, hml, hcl, ?_, ?_, ?_, decimalValue_Itoa _, ?_⟩
  · intro i hi
    have hi2 : i < (maskOf rand k s.length).length := by omega
    refine ⟨s[i], (maskOf rand k s.length)[i], List.getElem?_eq_getElem hi,
      List.getElem?_eq_getElem hi2, ?_⟩
    have hi3 : i < (cipherOf s (maskOf rand k s.length)).length := by omega
    rw [List.getElem?_eq_getElem hi3]
    simp [cipherOf]
  · exact unescape_escapeAll _ (maskOf_lt rand k s.length)
  · exact unescape_escapeAll _ (cipherOf_lt s _ hs (maskOf_lt rand k s.length))
  · have h := reconstruct_eq (maskOf rand k s.length) (cipherOf s (maskOf rand k s.length))
      (by omega)
    rw [hml] at h
    rw [h, xor_cipherOf s _ hml]

/-- Use of C1 on the two bytes of `hi` with the generator returning 7. -/
theorem obfuscatedStringCode_round_trip_witness :
    (∀ b ∈ [104, 105], b < 256) ∧
      reconstruct (maskOf (fun _ => 7) 0 2) (cipherOf [104, 105] (maskOf (fun _ => 7) 0 2)) 2 =
        some [104, 105] :=
  ⟨by decide, (obfuscatedStringCode_round_trip (fun _ => 7) 0 [104, 105] (by decide)).2.2.2.2.2.2.2⟩


/-- C8. Empty literal: for the decoded value of length 0 the generator leaves
the random generator where it was and emits, whatever the generator would
return, the one text whose mask and ciphertext literals are `[]byte("")` and
whose buffer is `make([]byte, 0)`; both literals denote the empty sequence and
the reconstruction, a loop of zero rounds, returns the empty string. -/
theorem obfuscatedStringCode_empty (rand : Nat → Nat) (k : Nat) :
    obfuscatedStringCode rand k [] =
        (txt "(func() string \x7b\nmask := []byte(\"\")\nmaskedStr := []byte(\"\")\nres := make([]byte, 0)\n        for i, m := range mask \x7b\n            res[i] = m ^ maskedStr[i]\n        \x7d\n        return string(res)\n        \x7d())", k)
      ∧ maskOf rand k 0 = []
      ∧ cipherOf [] (maskOf rand k 0) = []
      ∧ unescape (txt "") = some []
      ∧ reconstruct [] [] 0 = some [] :=
  ⟨rfl, rfl, rfl, rfl, rfl⟩

/-! ## Where double quotes stand in the emitted text -/

theorem quotesGuarded_append_left (E1 E2 xs ys : List Nat) (hx : ∀ c ∈ xs, c ≠ 34)
    (hy : QuotesGuarded E1 E2 ys) : QuotesGuarded E1 E2 (xs ++ ys) := by
  induction xs with
  | nil => exact hy
  | cons x xs ih =>
    refine ⟨fun h => absurd h (hx x (List.mem_cons_self _ _)), ?_⟩
    exact ih (fun c hc => hx c (List.mem_cons_of_mem _ hc))

theorem quotesGuarded_of_append (E1 E2 xs ys : List Nat) (h : QuotesGuarded E1 E2 (xs ++ ys)) :
    QuotesGuarded E1 E2 ys := by
  induction xs with
  | nil => exact h
  | cons x xs ih => exact ih h.2

theorem hexDigit_ne_quote (d : Nat) : hexDigit d ≠ 34 := by
  unfold hexDigit
  split <;> omega

theorem escapeAll_no_quote (bs : List Nat) : ∀ c ∈ escapeAll bs, c ≠ 34 := by
  induction bs with
  | nil => simp [escapeAll]
  | cons b bs ih =>
    intro c hc
    simp only [escapeAll, hexEscape, List.cons_append, List.nil_append, List.mem_cons] at hc
    rcases hc with rfl | rfl | rfl | rfl | hc
    · decide
    · decide
    · exact hexDigit_ne_quote _
    · exact hexDigit_ne_quote _
    · exact ih c hc

theorem itoaAux_no_quote (fuel n : Nat) (acc : List Nat) (h : ∀ c ∈ acc, c ≠ 34) :
    ∀ c ∈ itoaAux fuel n acc, c ≠ 34 := by
  induction fuel generalizing n acc with
  | zero => simpa [itoaAux] using h
  | succ fuel ih =>
    rw [itoaAux]
    split
    · intro c hc
      rcases List.mem_cons.1 hc with rfl | hc
      · omega
      · exact h c hc
    · apply ih
      intro c hc
      rcases List.mem_cons.1 hc with rfl | hc
      · omega
      · exact h c hc

theorem Itoa_no_quote (n : Nat) : ∀ c ∈ Itoa n, c ≠ 34 :=
  itoaAux_no_quote _ _ [] (by simp)

theorem isLowerHex_hexDigit (d : Nat) (h : d < 16) : isLowerHex (hexDigit d) = true := by
  interval_cases d <;> rfl

theorem hexRun_escapeAll (bs : List Nat) (h : ∀ b ∈ bs, b < 256) :
    hexRun (escapeAll bs) = true := by
  induction bs with
  | nil => rfl
  | cons b bs ih =>
    have hb : b < 256 := h b (List.mem_cons_self _ _)
    have ih2 := ih (fun x hx => h x (List.mem_cons_of_mem _ hx))
    have e : escapeAll (b :: bs) =
        92 :: 120 :: hexDigit (b / 16) :: hexDigit (b % 16) :: escapeAll bs := rfl
    rw [e, hexRun, isLowerHex_hexDigit (b / 16) (by omega),
      isLowerHex_hexDigit (b % 16) (by omega), ih2]
    rfl

/-- The emitted text as its four quotes and the quote-free text between them. -/
theorem obfuscatedStringCode_quotes (rand : Nat → Nat) (k : Nat) (str : List Nat) :
    (obfuscatedStringCode rand k str).1 =
      txt "(func() string \x7b\nmask := []byte(" ++ 34 ::
        (escapeAll (maskOf rand k str.length) ++ 34 :: 41 :: 10 ::
          (txt "maskedStr := []byte(" ++ 34 ::
            (escapeAll (cipherOf str (maskOf rand k str.length)) ++ 34 :: 41 :: 10 ::
              (txt "res := make([]byte, " ++ (Itoa str.length ++ codeTail))))) := by
  rw [obfuscatedStringCode_fst]
  have e1 : txt "(func() string \x7b\n" ++ txt "mask := []byte(\"" =
      txt "(func() string \x7b\nmask := []byte(" ++ [34] := by decide
  have e2 : txt "\")\nmaskedStr := []byte(\"" =
      34 :: 41 :: 10 :: (txt "maskedStr := []byte(" ++ [34]) := by
    decide
  have e3 : txt "\")\nres := make([]byte, " = 34 :: 41 :: 10 :: txt "res := make([]byte, " := by
    decide
  rw [e1, e2, e3]
  simp only [List.append_assoc, List.cons_append, List.nil_append]

set_option maxRecDepth 100000 in
/-- The emitted text keeps every double quote guarded. -/
theorem obfuscatedStringCode_quotesGuarded (rand : Nat → Nat) (k : Nat) (str : List Nat) :
    QuotesGuarded (escapeAll (maskOf rand k str.length))
      (escapeAll (cipherOf str (maskOf rand k str.length)))
      (obfuscatedStringCode rand k str).1 := by
  rw [obfuscatedStringCode_quotes]
  have hq1 := escapeAll_no_quote (maskOf rand k str.length)
  have hq2 := escapeAll_no_quote (cipherOf str (maskOf rand k str.length))
  generalize escapeAll (maskOf rand k str.length) = E1 at hq1 ⊢
  generalize escapeAll (cipherOf str (maskOf rand k str.length)) = E2 at hq2 ⊢
  have hC : ∀ c ∈ txt "res := make([]byte, " ++ (Itoa str.length ++ codeTail), c ≠ 34 := by
    intro c hc
    rcases List.mem_append.1 hc with h | h
    · exact (by decide : ∀ c ∈ txt "res := make([]byte, ", c ≠ 34) c h
    · rcases List.mem_append.1 h with h | h
      · exact Itoa_no_quote _ c h
      · exact (by decide : ∀ c ∈ codeTail, c ≠ 34) c h
  generalize txt "res := make([]byte, " ++ (Itoa str.length ++ codeTail) = C at hC ⊢
  have t4 : QuotesGuarded E1 E2 (41 :: 10 :: C) := by
    have h := quotesGuarded_append_left E1 E2 (41 :: 10 :: C) [] (by
      intro c hc
      rcases List.mem_cons.1 hc with rfl | hc
      · decide
      · rcases List.mem_cons.1 hc with rfl | hc
        · decide
        · exact hC c hc) trivial
    simpa using h
  have t3 : QuotesGuarded E1 E2 (34 :: 41 :: 10 :: C) :=
    ⟨fun _ => Or.inr (Or.inr ⟨_, rfl⟩), t4⟩
  have t2 : QuotesGuarded E1 E2 (34 :: (E2 ++ 34 :: 41 :: 10 :: C)) :=
    ⟨fun _ => Or.inr (Or.inl ⟨_, rfl⟩), quotesGuarded_append_left E1 E2 E2 _ hq2 t3⟩
  have t1 : QuotesGuarded E1 E2
      (41 :: 10 :: (txt "maskedStr := []byte(" ++ 34 :: (E2 ++ 34 :: 41 :: 10 :: C))) := by
    have h := quotesGuarded_append_left E1 E2 (41 :: 10 :: txt "maskedStr := []byte(")
      (34 :: (E2 ++ 34 :: 41 :: 10 :: C)) (by decide) t2
    simpa using h
  have t0 : QuotesGuarded E1 E2
      (34 :: 41 :: 10 :: (txt "maskedStr := []byte(" ++ 34 :: (E2 ++ 34 :: 41 :: 10 :: C))) :=
    ⟨fun _ => Or.inr (Or.inr ⟨_, rfl⟩), t1⟩
  have tA : QuotesGuarded E1 E2 (34 :: (E1 ++ 34 :: 41 :: 10 ::
      (txt "maskedStr := []byte(" ++ 34 :: (E2 ++ 34 :: 41 :: 10 :: C)))) :=
    ⟨fun _ => Or.inl ⟨_, rfl⟩, quotesGuarded_append_left E1 E2 E1 _ hq1 t0⟩
  exact quotesGuarded_append_left E1 E2 _ _ (by decide) tA

theorem split_at_quote (E xs q r : List Nat) (hE : ∀ c ∈ E, c ≠ 34)
    (h : xs ++ 34 :: q = E ++ 34 :: r) :
    xs = E ∨ ∃ ys, xs = E ++ 34 :: ys ∧ ys ++ 34 :: q = r := by
  induction E generalizing xs with
  | nil =>
    cases xs with
    | nil => exact Or.inl rfl
    | cons a xs =>
      simp only [List.cons_append, List.nil_append, List.cons.injEq] at h
      exact Or.inr ⟨xs, by rw [h.1]; rfl, h.2⟩
  | cons e E ih =>
    cases xs with
    | nil =>
      simp only [List.nil_append, List.cons_append, List.cons.injEq] at h
      exact absurd h.1.symm (hE e (List.mem_cons_self _ _))
    | cons a xs =>
      simp only [List.cons_append, List.cons.injEq] at h
      rcases ih xs (fun c hc => hE c (List.mem_cons_of_mem _ hc)) h.2 with h1 | ⟨ys, h1, h2⟩
      · exact Or.inl (by rw [h.1, h1])
      · exact Or.inr ⟨ys, by rw [h.1, h1]; rfl, h2⟩

theorem newline_before_close (ys q r : List Nat) (h : ys ++ 34 :: q = 41 :: 10 :: r) :
    10 ∈ ys := by
  match ys, h with
  | [], h => simp at h
  | [a], h => simp at h
  | a :: b :: t, h =>
    simp only [List.cons_append, List.cons.injEq] at h
    simp [h.2.1]

/-- A double-quoted literal whose body is not empty and holds no newline
occurs in a text with guarded quotes only as one of the two literal bodies. -/
theorem body_of_infix (E1 E2 l body : List Nat) (h1 : ∀ c ∈ E1, c ≠ 34)
    (h2 : ∀ c ∈ E2, c ≠ 34) (hl : QuotesGuarded E1 E2 l) (hnl : 10 ∉ body)
    (hin : (34 :: body ++ [34]) <:+: l) : body = E1 ∨ body = E2 := by
  obtain ⟨p, q, rfl⟩ := hin
  rw [List.append_assoc] at hl
  have hg := quotesGuarded_of_append _ _ _ _ hl
  have ho : QuoteOpens E1 E2 (body ++ 34 :: q) := by
    have := hg.1 rfl
    simpa using this
  rcases ho with ⟨r, hr⟩ | ⟨r, hr⟩ | ⟨r, hr⟩
  · rcases split_at_quote E1 body q _ h1 hr with h | ⟨ys, hy1, hy2⟩
    · exact Or.inl h
    · have := newline_before_close ys q r hy2
      exact absurd (by rw [hy1]; simp [this]) hnl
  · rcases split_at_quote E2 body q _ h2 hr with h | ⟨ys, hy1, hy2⟩
    · exact Or.inr h
    · have := newline_before_close ys q r hy2
      exact absurd (by rw [hy1]; simp [this]) hnl
  · exact absurd (newline_before_close body q r hr) hnl

/-! ## Lemmas on the splice loop -/

theorem slice_eq (data : List Nat) (lo hi : Int) (h0 : 0 ≤ lo) (h1 : lo ≤ hi)
    (h2 : hi ≤ (data.length : Int)) :
    slice data lo hi = some (between data lo.toNat hi.toNat) := by
  unfold slice between
  rw [if_pos ⟨h0, h1, h2⟩]

theorem slice_isSome_iff (data : List Nat) (lo hi : Int) :
    (slice data lo hi).isSome = true ↔ 0 ≤ lo ∧ lo ≤ hi ∧ hi ≤ (data.length : Int) := by
  unfold slice
  split <;> simp_all

theorem InsideFrom_le (data : List Nat) (nodes : List BasicLit) (cur : Int)
    (h : InsideFrom data cur nodes) : cur ≤ (data.length : Int) := by
  induction nodes generalizing cur with
  | nil => exact h
  | cons n ns ih =>
    have h1 := ih _ h.2.2
    have h2 := h.2.1
    have h3 := h.1
    omega

/-- The splice loop on sites lying in the buffer, with enough decoded
values: it returns, and its state is the one the specification describes. -/
theorem spliceLoop_returns (rand : Nat → Nat) (data : List Nat) (parsed : List (List Nat))
    (nodes : List BasicLit) (i : Nat) (st : SpliceState)
    (h0 : 0 ≤ st.lastIndex) (hin : InsideFrom data st.lastIndex nodes)
    (hn : i + nodes.length ≤ parsed.length) :
    ∃ st2, spliceLoop rand data parsed nodes i st = .returned st2
      ∧ st.lastIndex ≤ st2.lastIndex ∧ st2.lastIndex ≤ (data.length : Int)
      ∧ st2.result ++ data.drop st2.lastIndex.toNat =
          st.result ++ spliced data st.lastIndex.toNat (nodes.map span)
            (exprs rand st.k ((parsed.drop i).take nodes.length))
      ∧ st2.k = st.k + drawn ((parsed.drop i).take nodes.length) := by
  induction nodes generalizing i st with
  | nil =>
    refine ⟨st, rfl, le_refl _, hin, ?_, ?_⟩
    · simp [spliced]
    · simp [drawn]
  | cons n ns ih =>
    simp only [List.length_cons] at hn
    have hi : i < parsed.length := by omega
    have hPE := hin.2.1
    have hle := InsideFrom_le data ns _ hin.2.2
    have hs := slice_eq data st.lastIndex (n.Pos - 1) h0 hin.1 (by omega)
    obtain ⟨st2, e1, e2, e3, e4, e5⟩ := ih (i + 1)
      { lastIndex := n.End - 1
        result := st.result ++ between data st.lastIndex.toNat (n.Pos - 1).toNat ++
          (obfuscatedStringCode rand st.k parsed[i]).1
        k := (obfuscatedStringCode rand st.k parsed[i]).2 }
      (by have := hin.1; show 0 ≤ n.End - 1; omega) hin.2.2 (by omega)
    refine ⟨st2, ?_, ?_, e3, ?_, ?_⟩
    · rw [spliceLoop, List.getElem?_eq_getElem hi]
      simp only [hs]
      exact e1
    · have := hin.1
      simp only at e2
      omega
    · rw [e4]
      have hd : (parsed.drop i).take (ns.length + 1) =
          parsed[i] :: (parsed.drop (i + 1)).take ns.length := by
        rw [List.drop_eq_getElem_cons hi, List.take_succ_cons]
      simp only [List.length_cons, hd, List.map_cons, exprs, span, spliced, List.append_assoc,
        obfuscatedStringCode_snd]
    · rw [e5]
      have hd : (parsed.drop i).take (ns.length + 1) =
          parsed[i] :: (parsed.drop (i + 1)).take ns.length := by
        rw [List.drop_eq_getElem_cons hi, List.take_succ_cons]
      simp only [List.length_cons, hd, drawn, List.map_cons, List.sum_cons,
        obfuscatedStringCode_snd]
      omega

/-! ## Lemmas on the sort -/

theorem sortNodes_perm (nodes : List BasicLit) : (sortNodes nodes).Perm nodes :=
  List.perm_insertionSort NotAfter nodes

theorem sortNodes_sorted (nodes : List BasicLit) : (sortNodes nodes).Sorted NotAfter :=
  List.sorted_insertionSort NotAfter nodes

theorem sortNodes_length (nodes : List BasicLit) : (sortNodes nodes).length = nodes.length :=
  (sortNodes_perm nodes).length_eq

theorem InsideFrom_start (data : List Nat) (nodes : List BasicLit) (cur : Int)
    (h : InsideFrom data cur nodes) : ∀ m ∈ nodes, cur ≤ m.Pos - 1 := by
  induction nodes generalizing cur with
  | nil => simp
  | cons n ns ih =>
    intro m hm
    rcases List.mem_cons.1 hm with rfl | hm
    · exact h.1
    · have h1 := ih _ h.2.2 m hm
      have h2 := h.2.1
      have h3 := h.1
      omega

theorem InsideFrom_sorted (data : List Nat) (nodes : List BasicLit) (cur : Int)
    (h : InsideFrom data cur nodes) : nodes.Sorted NotAfter := by
  induction nodes generalizing cur with
  | nil => exact List.sorted_nil
  | cons n ns ih =>
    refine List.sorted_cons.2 ⟨?_, ih _ h.2.2⟩
    intro m hm
    have h1 := InsideFrom_start data ns _ h.2.2 m hm
    have h2 := h.2.1
    unfold NotAfter Less
    omega

theorem sortNodes_of_inside (data : List Nat) (nodes : List BasicLit) (cur : Int)
    (h : InsideFrom data cur nodes) : sortNodes nodes = nodes :=
  List.Sorted.insertionSort_eq (InsideFrom_sorted data nodes cur h)

/-! ## Lemmas on `Obfuscate` -/

/-- When the outside world answers without error, the sorted sites lie in the
buffer and there are enough decoded values, `Obfuscate` returns the buffer
the specification describes and a nil error. -/
theorem Obfuscate_returns (env : Env) (rand : Nat → Nat) (k : Nat) (s : stringObfuscator)
    (output : List Nat) (parsed : List (List Nat))
    (hT : env.TempDir = none) (hW : env.WriteFile (evalSource (sortNodes s.Nodes)) = none)
    (hR : env.Run (evalSource (sortNodes s.Nodes)) = (output, none))
    (hD : env.Decode output = .ok parsed)
    (hin : InsideFrom s.Contents 0 (sortNodes s.Nodes))
    (hn : s.Nodes.length ≤ parsed.length) :
    Obfuscate env rand k s =
      .returned ((some (spliced s.Contents 0 ((sortNodes s.Nodes).map span)
        (exprs rand k (parsed.take s.Nodes.length))), none),
        k + drawn (parsed.take s.Nodes.length)) := by
  obtain ⟨st2, e1, e2, e3, e4, e5⟩ := spliceLoop_returns rand s.Contents parsed
    (sortNodes s.Nodes) 0 (spliceStart k) (le_refl _) hin
    (by rw [sortNodes_length]; omega)
  have h0 : 0 ≤ st2.lastIndex := e2
  have hs := slice_eq s.Contents st2.lastIndex s.Contents.length h0 e3 (le_refl _)
  have hb : between s.Contents st2.lastIndex.toNat ((s.Contents.length : Int)).toNat =
      s.Contents.drop st2.lastIndex.toNat := by
    unfold between
    apply List.take_of_length_le
    simp
  unfold Obfuscate
  simp only [hT, hW, hR, hD, e1, hs, hb, e4, e5]
  simp [spliceStart, sortNodes_length]

/-! ## Lemmas on the bytes outside the spans -/

theorem SpansFrom_le (len : Nat) (spans : List (Nat × Nat)) (cur : Nat)
    (h : SpansFrom len cur spans) : cur ≤ len := by
  induction spans generalizing cur with
  | nil => exact h
  | cons se spans ih =>
    obtain ⟨s, e⟩ := se
    have := ih _ h.2.2
    have := h.1
    have := h.2.1
    omega

theorem SpansFrom_start (len : Nat) (spans : List (Nat × Nat)) (cur : Nat)
    (h : SpansFrom len cur spans) : ∀ se ∈ spans, cur ≤ se.1 := by
  induction spans generalizing cur with
  | nil => simp
  | cons se spans ih =>
    obtain ⟨s, e⟩ := se
    intro x hx
    rcases List.mem_cons.1 hx with rfl | hx
    · exact h.1
    · have := ih _ h.2.2 x hx
      have := h.1
      have := h.2.1
      omega

theorem SpansFrom_of_inside (data : List Nat) (nodes : List BasicLit) (cur : Int)
    (h0 : 0 ≤ cur) (h : InsideFrom data cur nodes) :
    SpansFrom data.length cur.toNat (nodes.map span) := by
  induction nodes generalizing cur with
  | nil =>
    have : cur ≤ (data.length : Int) := h
    show cur.toNat ≤ data.length
    omega
  | cons n ns ih =>
    have h1 := h.1
    have h2 := h.2.1
    have h3 := ih (n.End - 1) (by omega) h.2.2
    refine ⟨?_, ?_, h3⟩
    · show cur.toNat ≤ (n.Pos - 1).toNat
      omega
    · show (n.Pos - 1).toNat ≤ (n.End - 1).toNat
      omega

theorem keep_from_eq_outside (data : List Nat) (spans : List (Nat × Nat)) (cur : Nat)
    (h : SpansFrom data.length cur spans) :
    (((data.drop cur).enumFrom cur).filter (offSpans spans)).map Prod.snd =
      outside data cur spans := by
  induction spans generalizing cur with
  | nil =>
    have : ((data.drop cur).enumFrom cur).filter (offSpans []) = (data.drop cur).enumFrom cur :=
      List.filter_eq_self.2 (fun _ _ => rfl)
    rw [this, List.enumFrom_map_snd, outside]
  | cons se spans ih =>
    obtain ⟨s, e⟩ := se
    obtain ⟨h1, h2, h3⟩ := h
    have he := SpansFrom_le _ _ _ h3
    have hsplit : data.drop cur = between data cur s ++ (between data s e ++ data.drop e) := by
      unfold between
      have a1 : data.drop cur = (data.drop cur).take (s - cur) ++ (data.drop cur).drop (s - cur) :=
        (List.take_append_drop _ _).symm
      have a2 : (data.drop cur).drop (s - cur) = data.drop s := by
        rw [List.drop_drop]; congr 1; omega
      have a3 : data.drop s = (data.drop s).take (e - s) ++ (data.drop s).drop (e - s) :=
        (List.take_append_drop _ _).symm
      have a4 : (data.drop s).drop (e - s) = data.drop e := by
        rw [List.drop_drop]; congr 1; omega
      rw [a2] at a1
      rw [a4] at a3
      rw [← a3, ← a1]
    have l1 : (between data cur s).length = s - cur := by
      unfold between
      simp only [List.length_take, List.length_drop]
      omega
    have l2 : (between data s e).length = e - s := by
      unfold between
      simp only [List.length_take, List.length_drop]
      omega
    rw [hsplit, List.enumFrom_append, List.enumFrom_append, List.filter_append, List.filter_append,
      l1, l2]
    have c1 : cur + (s - cur) = s := by omega
    have c2 : s + (e - s) = e := by omega
    rw [c1, c2]
    have f1 : ((between data cur s).enumFrom cur).filter (offSpans ((s, e) :: spans)) =
        (between data cur s).enumFrom cur := by
      apply List.filter_eq_self.2
      intro ib hib
      have hlt := List.fst_lt_add_of_mem_enumFrom hib
      rw [l1, c1] at hlt
      simp only [offSpans, List.all_eq_true, Bool.not_eq_true', Bool.and_eq_false_imp,
        decide_eq_true_eq, decide_eq_false_iff_not, not_lt]
      intro se hse hle
      rcases List.mem_cons.1 hse with rfl | hse
      · simp only at hle; omega
      · have := SpansFrom_start _ _ _ h3 se hse
        omega
    have f2 : ((between data s e).enumFrom s).filter (offSpans ((s, e) :: spans)) = [] := by
      apply List.filter_eq_nil_iff.2
      intro ib hib
      have hlt := List.fst_lt_add_of_mem_enumFrom hib
      have hge := List.le_fst_of_mem_enumFrom hib
      rw [l2, c2] at hlt
      simp only [offSpans, List.all_cons, Bool.and_eq_true, Bool.not_eq_true',
        Bool.and_eq_false_imp, decide_eq_true_eq, decide_eq_false_iff_not, not_lt, not_and]
      intro hcon
      have := hcon hge
      omega
    have f3 : ((data.drop e).enumFrom e).filter (offSpans ((s, e) :: spans)) =
        ((data.drop e).enumFrom e).filter (offSpans spans) := by
      apply List.filter_congr
      intro ib hib
      have hge := List.le_fst_of_mem_enumFrom hib
      have : (!(decide (s ≤ ib.1) && decide (ib.1 < e))) = true := by
        simp only [Bool.not_eq_true', Bool.and_eq_false_imp, decide_eq_true_eq,
          decide_eq_false_iff_not, not_lt]
        intro _
        exact hge
      simp only [offSpans, List.all_cons, this, Bool.true_and]
    rw [f1, f2, f3, List.nil_append, List.map_append, List.enumFrom_map_snd, ih e h3, outside]

theorem outside_eq_keepOutside (data : List Nat) (spans : List (Nat × Nat))
    (h : SpansFrom data.length 0 spans) : outside data 0 spans = keepOutside data spans := by
  have := keep_from_eq_outside data spans 0 h
  rw [← this]
  rfl

theorem spliced_without_exprs (data : List Nat) (spans : List (Nat × Nat)) (cur : Nat) :
    spliced data cur spans (List.replicate spans.length []) = outside data cur spans := by
  induction spans generalizing cur with
  | nil => rfl
  | cons se spans ih =>
    obtain ⟨s, e⟩ := se
    simp only [List.length_cons, List.replicate_succ, spliced, outside, List.append_nil, ih]

/-! ## The splice: byte preservation -/

/-- C2. Byte preservation of the splice: when the outside world answers
without error, the sites lie in the buffer in ascending order without
overlap and every site has its decoded value, `Obfuscate` returns
`Contents[0:start_1] ++ expr_1 ++ Contents[end_1:start_2] ++ ... ++
Contents[end_n:]` with `expr_i` generated from the i-th decoded value; taking
the expressions out of it leaves exactly the bytes of `Contents` whose offset
is in no literal span, in order; with no sites the result is `Contents`. -/
theorem Obfuscate_byte_preservation (env : Env) (rand : Nat → Nat) (k : Nat)
    (s : stringObfuscator) (output : List Nat) (parsed : List (List Nat))
    (hT : env.TempDir = none) (hW : env.WriteFile (evalSource s.Nodes) = none)
    (hR : env.Run (evalSource s.Nodes) = (output, none))
    (hD : env.Decode output = .ok parsed)
    (hn : s.Nodes.length ≤ parsed.length)
    (hin : InsideFrom s.Contents 0 s.Nodes) :
    Obfuscate env rand k s =
        .returned ((some (spliced s.Contents 0 (s.Nodes.map span)
          (exprs rand k (parsed.take s.Nodes.length))), none),
          k + drawn (parsed.take s.Nodes.length))
      ∧ spliced s.Contents 0 (s.Nodes.map span) (List.replicate (s.Nodes.map span).length []) =
          keepOutside s.Contents (s.Nodes.map span)
      ∧ (s.Nodes = [] → Obfuscate env rand k s = .returned ((some s.Contents, none), k)) := by
  have hsort := sortNodes_of_inside s.Contents s.Nodes 0 hin
  have hret := Obfuscate_returns env rand k s output parsed hT (by rw [hsort]; exact hW)
    (by rw [hsort]; exact hR) hD (by rw [hsort]; exact hin) hn
  rw [hsort] at hret
  refine ⟨hret, ?_, ?_⟩
  · rw [spliced_without_exprs]
    exact outside_eq_keepOutside _ _ (SpansFrom_of_inside s.Contents s.Nodes 0 (le_refl _) hin)
  · intro hnil
    rw [hret, hnil]
    simp [spliced, exprs, drawn]

/-- Use of C2 on a raw literal holding a carriage return. -/
theorem Obfuscate_byte_preservation_witness :
    InsideFrom rawLiteralFile.Contents 0 rawLiteralFile.Nodes ∧
      Obfuscate (okEnv [[97, 10, 98]]) (fun _ => 0) 0 rawLiteralFile =
        .returned ((some (spliced rawLiteralFile.Contents 0 (rawLiteralFile.Nodes.map span)
          (exprs (fun _ => 0) 0
            (([[97, 10, 98]] : List (List Nat)).take rawLiteralFile.Nodes.length))),
          none), 0 + drawn (([[97, 10, 98]] : List (List Nat)).take rawLiteralFile.Nodes.length)) :=
  ⟨by decide, (Obfuscate_byte_preservation (okEnv [[97, 10, 98]]) (fun _ => 0) 0 rawLiteralFile []
    [[97, 10, 98]] rfl rfl rfl rfl (by decide) (by decide)).1⟩

set_option maxRecDepth 100000 in
/-- On the raw literal holding a carriage return the whole literal is
replaced: the result is `x = ` followed by the generated expression. -/
theorem Obfuscate_rawLiteral :
    Obfuscate (okEnv [[97, 10, 98]]) (fun _ => 0) 0 rawLiteralFile =
      .returned ((some (txt "x = " ++ (obfuscatedStringCode (fun _ => 0) 0 [97, 10, 98]).1),
        none), 3) := by
  decide

/-! ## The splice: safety -/

theorem spliceLoop_append (rand : Nat → Nat) (data : List Nat) (parsed : List (List Nat))
    (xs ys : List BasicLit) (i : Nat) (st : SpliceState) :
    spliceLoop rand data parsed (xs ++ ys) i st =
      match spliceLoop rand data parsed xs i st with
      | .returned st2 => spliceLoop rand data parsed ys (i + xs.length) st2
      | .panicked => .panicked := by
  induction xs generalizing i st with
  | nil => simp [spliceLoop]
  | cons x xs ih =>
    simp only [List.cons_append, spliceLoop, List.length_cons]
    cases hp : parsed[i]? with
    | none => rfl
    | some v =>
      simp only []
      cases hs : slice data st.lastIndex (x.Pos - 1) with
      | none => rfl
      | some chunk =>
        simp only []
        have := ih (i + 1)
          { lastIndex := x.End - 1
            result := st.result ++ chunk ++ (obfuscatedStringCode rand st.k v).1
            k := (obfuscatedStringCode rand st.k v).2 }
        have hl : i + 1 + xs.length = i + (xs.length + 1) := by omega
        rw [hl] at this
        exact this

theorem InsideFrom_mem (data : List Nat) (nodes : List BasicLit) (cur : Int)
    (h : InsideFrom data cur nodes) : ∀ n ∈ nodes, n.Pos ≤ n.End := by
  induction nodes generalizing cur with
  | nil => simp
  | cons n ns ih =>
    intro m hm
    rcases List.mem_cons.1 hm with rfl | hm
    · exact h.2.1
    · exact ih _ h.2.2 m hm

theorem InsideFrom_take (data : List Nat) (nodes : List BasicLit) (cur : Int) (j : Nat)
    (h : InsideFrom data cur nodes) : InsideFrom data cur (nodes.take j) := by
  induction nodes generalizing cur j with
  | nil => simpa using h
  | cons n ns ih =>
    cases j with
    | zero => exact InsideFrom_le data _ cur h
    | succ j => exact ⟨h.1, h.2.1, ih _ j h.2.2⟩

/-- C10. Splice safety: on sites lying in the buffer in ascending order
(`0 ≤ start_1`, `start_i ≤ end_i ≤ start_(i+1)`, `end_n ≤ len(Contents)`) and
with at least as many decoded strings as sites, every round `j` of the
splice loop starts from a state reached without panic, finds `parsed[j]` and
the slice `Contents[lastIndex:startIdx]` in range and leaves the cursor at
`endIdx`, not below where it was; the loop returns, the final slice
`Contents[lastIndex:]` is in range, and `Obfuscate` does not panic. -/
theorem splice_safety (rand : Nat → Nat) (data : List Nat) (parsed : List (List Nat))
    (nodes : List BasicLit) (k : Nat)
    (hin : InsideFrom data 0 nodes) (hn : nodes.length ≤ parsed.length) :
    (∀ (j : Nat) (node : BasicLit), nodes[j]? = some node →
        ∃ st st2, spliceLoop rand data parsed (nodes.take j) 0 (spliceStart k) = .returned st
          ∧ spliceLoop rand data parsed (nodes.take (j + 1)) 0 (spliceStart k) = .returned st2
          ∧ (parsed[j]?).isSome = true
          ∧ (slice data st.lastIndex (node.Pos - 1)).isSome = true
          ∧ 0 ≤ st.lastIndex ∧ st.lastIndex ≤ node.Pos - 1
          ∧ node.Pos - 1 ≤ (data.length : Int)
          ∧ st2.lastIndex = node.End - 1
          ∧ st.lastIndex ≤ st2.lastIndex)
      ∧ (∃ st, spliceLoop rand data parsed nodes 0 (spliceStart k) = .returned st
          ∧ (slice data st.lastIndex data.length).isSome = true)
      ∧ (∀ env : Env, (∀ out p, env.Decode out = .ok p → nodes.length ≤ p.length) →
          Obfuscate env rand k { Contents := data, Nodes := nodes } ≠ .panicked) := by
  refine ⟨?_, ?_, ?_⟩
  · intro j node hj
    have hjlt : j < nodes.length := by
      rcases Nat.lt_or_ge j nodes.length with h | h
      · exact h
      · rw [List.getElem?_eq_none h] at hj; cases hj
    obtain ⟨st, e1, e2, _, _, _⟩ := spliceLoop_returns rand data parsed (nodes.take j) 0
      (spliceStart k) (le_refl _) (InsideFrom_take data nodes 0 j hin)
      (by simp only [List.length_take]; omega)
    obtain ⟨st2, f1, _, _, _, _⟩ := spliceLoop_returns rand data parsed (nodes.take (j + 1)) 0
      (spliceStart k) (le_refl _) (InsideFrom_take data nodes 0 (j + 1) hin)
      (by simp only [List.length_take]; omega)
    have htake : nodes.take (j + 1) = nodes.take j ++ [node] := by
      rw [List.take_succ, hj]; rfl
    have hlen : (nodes.take j).length = j := by
      simp only [List.length_take]; omega
    have f2 := f1
    rw [htake, spliceLoop_append, e1] at f2
    simp only [hlen, Nat.zero_add, spliceLoop] at f2
    have h0 : 0 ≤ st.lastIndex := e2
    cases hp : parsed[j]? with
    | none => rw [hp] at f2; cases f2
    | some v =>
      rw [hp] at f2
      simp only [] at f2
      cases hs : slice data st.lastIndex (node.Pos - 1) with
      | none => rw [hs] at f2; cases f2
      | some chunk =>
        rw [hs] at f2
        simp only [Outcome.returned.injEq] at f2
        have hb := (slice_isSome_iff data st.lastIndex (node.Pos - 1)).1 (by rw [hs]; rfl)
        have hPE := InsideFrom_mem data nodes 0 hin node (List.getElem?_mem hj)
        have hl : st2.lastIndex = node.End - 1 := by rw [← f2]
        refine ⟨st, st2, e1, f1, rfl, by rw [hs]; rfl, h0, hb.2.1, hb.2.2, hl, ?_⟩
        omega
  · obtain ⟨st, e1, e2, e3, _, _⟩ := spliceLoop_returns rand data parsed nodes 0
      (spliceStart k) (le_refl _) hin (by omega)
    refine ⟨st, e1, ?_⟩
    exact (slice_isSome_iff _ _ _).2 ⟨e2, e3, le_refl _⟩
  · intro env henv
    have hsort := sortNodes_of_inside data nodes 0 hin
    unfold Obfuscate
    simp only [hsort]
    cases env.TempDir with
    | some e => simp
    | none =>
      simp only []
      cases env.WriteFile (evalSource nodes) with
      | some e => simp
      | none =>
        simp only []
        rcases hrun : env.Run (evalSource nodes) with ⟨out, _ | e⟩
        · simp only []
          cases hd : env.Decode out with
          | error e => simp
          | ok p =>
            simp only []
            obtain ⟨st, e1, e2, e3, _, _⟩ := spliceLoop_returns rand data p nodes 0
              (spliceStart k) (le_refl _) hin (by have := henv out p hd; omega)
            rw [e1]
            simp only []
            rw [slice_eq data st.lastIndex data.length e2 e3 (le_refl _)]
            simp
        · simp

/-- Use of C10 on the line `greeting = "hi"`. -/
theorem splice_safety_witness :
    InsideFrom greetingFile.Contents 0 greetingFile.Nodes ∧
      ∃ st, spliceLoop (fun _ => 0) greetingFile.Contents [[104, 105]] greetingFile.Nodes 0
          (spliceStart 0) = .returned st
        ∧ (slice greetingFile.Contents st.lastIndex greetingFile.Contents.length).isSome = true :=
  ⟨by decide, (splice_safety (fun _ => 0) greetingFile.Contents [[104, 105]] greetingFile.Nodes 0
    (by decide) (by decide)).2.1⟩

/-! ## Order of the sites -/

theorem evalLoop_eq (nodes : List BasicLit) (source : List Nat) :
    evalLoop nodes source =
      source ++ (nodes.map (fun n => txt "list = append(list, " ++ n.Value ++ txt ")\n")).flatten := by
  induction nodes generalizing source with
  | nil => simp [evalLoop]
  | cons n ns ih => simp [evalLoop, ih]

theorem exprs_getElem? (rand : Nat → Nat) (k : Nat) (vs : List (List Nat)) (i : Nat) :
    (exprs rand k vs)[i]? =
      (vs[i]?).map (fun v => (obfuscatedStringCode rand (k + drawn (vs.take i)) v).1) := by
  induction vs generalizing k i with
  | nil => simp [exprs]
  | cons v vs ih =>
    cases i with
    | zero => simp [exprs, drawn]
    | succ i =>
      simp only [exprs, List.getElem?_cons_succ, ih, List.take_succ_cons, drawn, List.map_cons,
        List.sum_cons, Nat.add_assoc]

/-- C4. Order correspondence: whatever order the sites were recorded in, the
sorted list is a permutation of them in ascending start position; the
evaluator program is its header, one line `list = append(list, <raw literal
text>)` per site in that order, and its footer; and when the outside world
answers without error and the sorted sites lie in the buffer, `Obfuscate`
returns the splice that puts at the span of the i-th sorted site the
expression generated from the i-th decoded string, so that if the decoded
strings are the values of the program lines in order, the i-th one used is
the value of the literal of the i-th site. -/
theorem Obfuscate_order (s : stringObfuscator) :
    (sortNodes s.Nodes).Perm s.Nodes
      ∧ (sortNodes s.Nodes).Pairwise (fun a b => a.Pos ≤ b.Pos)
      ∧ evalSource (sortNodes s.Nodes) =
          evalHeader ++
            ((sortNodes s.Nodes).map
              (fun n => txt "list = append(list, " ++ n.Value ++ txt ")\n")).flatten ++
            evalFooter
      ∧ (∀ (env : Env) (rand : Nat → Nat) (k : Nat) (output : List Nat)
          (parsed : List (List Nat)),
          env.TempDir = none → env.WriteFile (evalSource (sortNodes s.Nodes)) = none →
          env.Run (evalSource (sortNodes s.Nodes)) = (output, none) →
          env.Decode output = .ok parsed →
          InsideFrom s.Contents 0 (sortNodes s.Nodes) →
          s.Nodes.length ≤ parsed.length →
          Obfuscate env rand k s =
              .returned ((some (spliced s.Contents 0 ((sortNodes s.Nodes).map span)
                (exprs rand k (parsed.take s.Nodes.length))), none),
                k + drawn (parsed.take s.Nodes.length))
            ∧ (∀ (i : Nat) (node : BasicLit), (sortNodes s.Nodes)[i]? = some node →
                ∃ v, parsed[i]? = some v ∧
                  ((sortNodes s.Nodes).map span)[i]? = some (span node) ∧
                  (exprs rand k (parsed.take s.Nodes.length))[i]? =
                    some (obfuscatedStringCode rand (k + drawn (parsed.take i)) v).1)
            ∧ (∀ val : List Nat → List Nat,
                parsed = (sortNodes s.Nodes).map (fun n => val n.Value) →
                ∀ (i : Nat) (node : BasicLit), (sortNodes s.Nodes)[i]? = some node →
                  parsed[i]? = some (val node.Value))) := by
  refine ⟨sortNodes_perm _, ?_, ?_, ?_⟩
  · have h := sortNodes_sorted s.Nodes
    refine List.Pairwise.imp ?_ h
    intro a b hab
    unfold NotAfter Less at hab
    omega
  · unfold evalSource
    rw [evalLoop_eq]
  · intro env rand k output parsed hT hW hR hD hin hn
    refine ⟨Obfuscate_returns env rand k s output parsed hT hW hR hD hin hn, ?_, ?_⟩
    · intro i node hi
      have hilt : i < (sortNodes s.Nodes).length := by
        rcases Nat.lt_or_ge i (sortNodes s.Nodes).length with h | h
        · exact h
        · rw [List.getElem?_eq_none h] at hi; cases hi
      rw [sortNodes_length] at hilt
      have hip : i < parsed.length := by omega
      refine ⟨parsed[i], List.getElem?_eq_getElem hip, ?_, ?_⟩
      · rw [List.getElem?_map, hi]; rfl
      · rw [exprs_getElem?]
        have h1 : (parsed.take s.Nodes.length)[i]? = some parsed[i] := by
          rw [List.getElem?_take_of_lt hilt, List.getElem?_eq_getElem hip]
        have h2 : (parsed.take s.Nodes.length).take i = parsed.take i := by
          rw [List.take_take]; congr 1; omega
        rw [h1, h2]; rfl
    · intro val hval i node hi
      rw [hval, List.getElem?_map, hi]; rfl

/-- Use of C4 on two literals recorded in reverse order. -/
theorem Obfuscate_order_witness :
    InsideFrom twoLiterals.Contents 0 (sortNodes twoLiterals.Nodes) ∧
      Obfuscate (okEnv [[97], [98]]) (fun _ => 0) 0 twoLiterals =
        .returned ((some (spliced twoLiterals.Contents 0 ((sortNodes twoLiterals.Nodes).map span)
          (exprs (fun _ => 0) 0 (([[97], [98]] : List (List Nat)).take twoLiterals.Nodes.length))),
          none), 0 + drawn (([[97], [98]] : List (List Nat)).take twoLiterals.Nodes.length)) :=
  ⟨by decide, ((Obfuscate_order twoLiterals).2.2.2 (okEnv [[97], [98]]) (fun _ => 0) 0 []
    [[97], [98]] rfl rfl rfl rfl (by decide) (by decide)).1⟩

/-! ## Count of decoded strings -/

theorem spliceLoop_short (rand : Nat → Nat) (data : List Nat) (parsed : List (List Nat))
    (nodes : List BasicLit) (i : Nat) (st : SpliceState)
    (h1 : i ≤ parsed.length) (h2 : parsed.length < i + nodes.length) :
    spliceLoop rand data parsed nodes i st = .panicked := by
  induction nodes generalizing i st with
  | nil => simp at h2; omega
  | cons n ns ih =>
    simp only [List.length_cons] at h2
    rw [spliceLoop]
    rcases Nat.lt_or_ge i parsed.length with hlt | hge
    · rw [List.getElem?_eq_getElem hlt]
      simp only []
      cases slice data st.lastIndex (n.Pos - 1) with
      | none => rfl
      | some chunk =>
        simp only []
        exact ih (i + 1) _ (by omega) (by omega)
    · rw [List.getElem?_eq_none hge]

/-- C5, as the code has it. `Obfuscate` does not compare the number of decoded
strings with the number of sites.  When the outside world answers without
error and the decoded output has more strings than there are sites lying in
the buffer, it returns the splice built from the first strings and a nil
error; when it has fewer strings than sites it returns no error value: the
splice loop panics. -/
theorem Obfuscate_count_mismatch (env : Env) (rand : Nat → Nat) (k : Nat)
    (s : stringObfuscator) (output : List Nat) (parsed : List (List Nat))
    (hT : env.TempDir = none) (hW : env.WriteFile (evalSource (sortNodes s.Nodes)) = none)
    (hR : env.Run (evalSource (sortNodes s.Nodes)) = (output, none))
    (hD : env.Decode output = .ok parsed) :
    (s.Nodes.length < parsed.length → InsideFrom s.Contents 0 (sortNodes s.Nodes) →
        Obfuscate env rand k s =
          .returned ((some (spliced s.Contents 0 ((sortNodes s.Nodes).map span)
            (exprs rand k (parsed.take s.Nodes.length))), none),
            k + drawn (parsed.take s.Nodes.length)))
      ∧ (parsed.length < s.Nodes.length → Obfuscate env rand k s = .panicked) := by
  refine ⟨?_, ?_⟩
  · intro hlt hin
    exact Obfuscate_returns env rand k s output parsed hT hW hR hD hin (by omega)
  · intro hlt
    have hp := spliceLoop_short rand s.Contents parsed (sortNodes s.Nodes) 0 (spliceStart k)
      (Nat.zero_le _) (by rw [sortNodes_length]; omega)
    unfold Obfuscate
    simp only [hT, hW, hR, hD, hp]

/-- Use of the amended C5: one site, two decoded strings. -/
theorem Obfuscate_count_mismatch_witness :
    greetingFile.Nodes.length < ([[104, 105], [120]] : List (List Nat)).length ∧
      Obfuscate (okEnv [[104, 105], [120]]) (fun _ => 0) 0 greetingFile =
        .returned ((some (spliced greetingFile.Contents 0 ((sortNodes greetingFile.Nodes).map span)
          (exprs (fun _ => 0) 0
            (([[104, 105], [120]] : List (List Nat)).take greetingFile.Nodes.length))), none),
          0 + drawn (([[104, 105], [120]] : List (List Nat)).take greetingFile.Nodes.length)) :=
  ⟨by decide, (Obfuscate_count_mismatch (okEnv [[104, 105], [120]]) (fun _ => 0) 0 greetingFile []
    [[104, 105], [120]] rfl rfl rfl rfl).1 (by decide) (by decide)⟩

set_option maxRecDepth 100000 in
/-- C5 fails on the code: with one site and two decoded strings `Obfuscate`
returns a spliced buffer and a nil error, and with one site and no decoded
string it panics; in neither case does it return an error. -/
theorem Obfuscate_count_mismatch_counterexample :
    ([[104, 105], [120]] : List (List Nat)).length ≠ greetingFile.Nodes.length
      ∧ Obfuscate (okEnv [[104, 105], [120]]) (fun _ => 0) 0 greetingFile =
          .returned ((some (txt "greeting = " ++ (obfuscatedStringCode (fun _ => 0) 0 [104, 105]).1),
            none), 2)
      ∧ ([] : List (List Nat)).length ≠ greetingFile.Nodes.length
      ∧ Obfuscate (okEnv []) (fun _ => 0) 0 greetingFile = .panicked := by
  refine ⟨by decide, by decide, by decide, by decide⟩

/-! ## Plain text of a literal in the emitted expression -/

set_option maxRecDepth 100000 in
/-- C7, as the code has it. For every decoded value and every mask, a
double-quoted literal whose body is not empty and holds no newline occurs,
delimiters included, in the emitted expression exactly when its body is the
run of escapes of the mask literal or of the ciphertext literal; hence, the
decoded value being a byte string, a literal whose body is not a whole run
of lower-case `\xhh` escapes does not occur in it; and the rewritten file of
`greeting = "hi"` does not contain `"hi"`, whatever the mask. -/
theorem literal_text_hidden (rand : Nat → Nat) (k : Nat) :
    (∀ str body : List Nat, body ≠ [] → 10 ∉ body →
        ((34 :: body ++ [34]) <:+: (obfuscatedStringCode rand k str).1 ↔
          body = escapeAll (maskOf rand k str.length) ∨
            body = escapeAll (cipherOf str (maskOf rand k str.length))))
      ∧ (∀ str body : List Nat, (∀ b ∈ str, b < 256) → 10 ∉ body → hexRun body = false →
          ¬ ((34 :: body ++ [34]) <:+: (obfuscatedStringCode rand k str).1))
      ∧ ∃ out, Obfuscate (okEnv [[104, 105]]) rand k greetingFile =
            .returned ((some out, none), k + 2)
          ∧ ¬ (txt "\"hi\"" <:+: out) := by
  have key : ∀ str body : List Nat, 10 ∉ body →
      (34 :: body ++ [34]) <:+: (obfuscatedStringCode rand k str).1 →
      body = escapeAll (maskOf rand k str.length) ∨
        body = escapeAll (cipherOf str (maskOf rand k str.length)) := by
    intro str body hnl hin
    exact body_of_infix _ _ _ body (escapeAll_no_quote _) (escapeAll_no_quote _)
      (obfuscatedStringCode_quotesGuarded rand k str) hnl hin
  refine ⟨?_, ?_, ?_⟩
  · intro str body _ hnl
    refine ⟨key str body hnl, ?_⟩
    rintro (h | h)
    · rw [obfuscatedStringCode_quotes, h]
      exact ⟨txt "(func() string \x7b\nmask := []byte(",
        41 :: 10 :: (txt "maskedStr := []byte(" ++ 34 ::
          (escapeAll (cipherOf str (maskOf rand k str.length)) ++ 34 :: 41 :: 10 ::
            (txt "res := make([]byte, " ++ (Itoa str.length ++ codeTail)))), by
        simp only [List.append_assoc, List.cons_append, List.nil_append]⟩
    · rw [obfuscatedStringCode_quotes, h]
      refine ⟨txt "(func() string \x7b\nmask := []byte(" ++ 34 ::
        (escapeAll (maskOf rand k str.length) ++ 34 :: 41 :: 10 ::
          txt "maskedStr := []byte("),
        41 :: 10 :: (txt "res := make([]byte, " ++ (Itoa str.length ++ codeTail)), ?_⟩
      simp only [List.append_assoc, List.cons_append, List.nil_append]
  · intro str body hs hnl hrun hin
    have hm := maskOf_lt rand k str.length
    rcases key str body hnl hin with h | h
    · rw [h, hexRun_escapeAll _ hm] at hrun
      cases hrun
    · rw [h, hexRun_escapeAll _ (cipherOf_lt str _ hs hm)] at hrun
      cases hrun
  · have hret := Obfuscate_returns (okEnv [[104, 105]]) rand k greetingFile [] [[104, 105]]
      rfl rfl rfl rfl (by decide) (by decide)
    have hsp : spliced greetingFile.Contents 0 ((sortNodes greetingFile.Nodes).map span)
        (exprs rand k (([[104, 105]] : List (List Nat)).take greetingFile.Nodes.length)) =
        txt "greeting = " ++ ((obfuscatedStringCode rand k [104, 105]).1 ++ []) := rfl
    rw [hsp, List.append_nil] at hret
    refine ⟨_, hret, ?_⟩
    intro hin
    have hg := quotesGuarded_append_left _ _ (txt "greeting = ") _ (by decide)
      (obfuscatedStringCode_quotesGuarded rand k [104, 105])
    have hm := maskOf_lt rand k ([104, 105] : List Nat).length
    have hb := body_of_infix _ _ _ (txt "hi") (escapeAll_no_quote _) (escapeAll_no_quote _)
      hg (by decide) hin
    have hrun : hexRun (txt "hi") = false := by decide
    rcases hb with h | h
    · rw [h, hexRun_escapeAll _ hm] at hrun
      cases hrun
    · rw [h, hexRun_escapeAll _ (cipherOf_lt _ _ (by decide) hm)] at hrun
      cases hrun

/-- Use of the amended C7 on the literal `"\x1b[31m"`, which begins with an
escape and is no run of escapes, with the generator returning 7. -/
theorem literal_text_hidden_witness :
    ((∀ b ∈ [27, 91, 51, 49, 109], b < 256) ∧ 10 ∉ txt "\\x1b[31m" ∧
        hexRun (txt "\\x1b[31m") = false) ∧
      ¬ ((34 :: txt "\\x1b[31m" ++ [34]) <:+:
        (obfuscatedStringCode (fun _ => 7) 0 [27, 91, 51, 49, 109]).1) :=
  ⟨⟨by decide, by decide, by decide⟩, (literal_text_hidden (fun _ => 7) 0).2.1
    [27, 91, 51, 49, 109] (txt "\\x1b[31m") (by decide) (by decide) (by decide)⟩

set_option maxRecDepth 100000 in
/-- C7 fails on the code: the double-quoted literal `"\x68\x69"` has a
non-empty body and denotes `hi`; with a mask of zero bytes the ciphertext
literal of the emitted expression is that very text. -/
theorem literal_text_hidden_counterexample :
    txt "\\x68\\x69" ≠ []
      ∧ unescape (txt "\\x68\\x69") = some [104, 105]
      ∧ maskOf (fun _ => 0) 0 2 = [0, 0]
      ∧ (txt "\"\\x68\\x69\"") <:+: (obfuscatedStringCode (fun _ => 0) 0 [104, 105]).1 := by
  refine ⟨by decide, by decide, by decide, ?_⟩
  refine ⟨txt "(func() string \x7b\nmask := []byte(\"\\x00\\x00\")\nmaskedStr := []byte(",
    txt ")\nres := make([]byte, 2)\n        for i, m := range mask \x7b\n            res[i] = m ^ maskedStr[i]\n        \x7d\n        return string(res)\n        \x7d())", ?_⟩
  decide

/-! ## The driver: parse errors and partial output -/

/-- The guard of lines 34-36: were the normaliser to return nil on a file
that `parser.ParseFile` rejects, the callback would return nil, write nothing
and `ObfuscateStrings` would go on with the next entry. -/
theorem perFile_parse_guard (GoExtension : String) (rand : Nat → Nat) (k : Nat) (f : FileEntry)
    (e : GoError) (hw : f.walkErr = none) (hext : f.ext = GoExtension) (hdir : f.isDir = false)
    (hc : f.constsToVar = none) (hp : f.parse = .error e) :
    perFile GoExtension rand k f = .returned { err := none, written := none, k := k }
      ∧ (∀ fs log, ObfuscateStrings GoExtension rand (f :: fs) k log =
          ObfuscateStrings GoExtension rand fs k log) := by
  have h1 : perFile GoExtension rand k f = .returned { err := none, written := none, k := k } := by
    unfold perFile
    simp [hw, hext, hdir, hc, hp]
  refine ⟨h1, ?_⟩
  intro fs log
  rw [ObfuscateStrings, h1]

/-- C6. Parse errors propagate: for every file with the recognised extension
that fails to parse, the normaliser being as the specification describes it,
the callback of `ObfuscateStrings` returns a non-nil error without writing
the file, and `ObfuscateStrings` returns that error without going on to the
next entry. -/
theorem perFile_parse_error (GoExtension : String) (rand : Nat → Nat) (k : Nat) (f : FileEntry)
    (e : GoError) (hext : f.ext = GoExtension) (hdir : f.isDir = false)
    (hp : f.parse = .error e) (hnorm : NormaliserContract f) :
    ∃ err, perFile GoExtension rand k f =
        .returned { err := some err, written := none, k := k }
      ∧ ∀ fs log, ObfuscateStrings GoExtension rand (f :: fs) k log =
          .returned (some err, log) := by
  have h1 : ∃ err, perFile GoExtension rand k f =
      .returned { err := some err, written := none, k := k } := by
    cases hw : f.walkErr with
    | some e1 =>
      refine ⟨e1, ?_⟩
      unfold perFile
      simp [hw]
    | none =>
      obtain ⟨e2, he2⟩ := hnorm e hp
      refine ⟨e2, ?_⟩
      unfold perFile
      simp [hw, hext, hdir, he2]
  obtain ⟨err, herr⟩ := h1
  refine ⟨err, herr, ?_⟩
  intro fs log
  rw [ObfuscateStrings, herr]

/-- Use of C6 on a file that does not parse. -/
theorem perFile_parse_error_witness :
    (badFile.parse = .error "expected package" ∧ NormaliserContract badFile) ∧
      ∃ err, perFile ".go" (fun _ => 0) 0 badFile =
          .returned { err := some err, written := none, k := 0 }
        ∧ ∀ fs log, ObfuscateStrings ".go" (fun _ => 0) (badFile :: fs) 0 log =
            .returned (some err, log) :=
  ⟨⟨rfl, fun _ _ => ⟨"expected package", rfl⟩⟩,
    perFile_parse_error ".go" (fun _ => 0) 0 badFile "expected package" rfl rfl rfl
      (fun _ _ => ⟨"expected package", rfl⟩)⟩

theorem Obfuscate_error_no_bytes (env : Env) (rand : Nat → Nat) (k : Nat) (s : stringObfuscator)
    (b : Option (List Nat)) (e : Option GoError) (k2 : Nat)
    (h : Obfuscate env rand k s = .returned ((b, e), k2)) :
    (b = none ∧ e ≠ none) ∨ (b ≠ none ∧ e = none) := by
  unfold Obfuscate at h
  split at h
  · simp only [Outcome.returned.injEq, Prod.mk.injEq] at h
    exact Or.inl ⟨h.1.1.symm, by rw [← h.1.2]; simp⟩
  · dsimp only at h
    split at h
    · simp only [Outcome.returned.injEq, Prod.mk.injEq] at h
      exact Or.inl ⟨h.1.1.symm, by rw [← h.1.2]; simp⟩
    · split at h
      · simp only [Outcome.returned.injEq, Prod.mk.injEq] at h
        exact Or.inl ⟨h.1.1.symm, by rw [← h.1.2]; simp⟩
      · split at h
        · simp only [Outcome.returned.injEq, Prod.mk.injEq] at h
          exact Or.inl ⟨h.1.1.symm, by rw [← h.1.2]; simp⟩
        · split at h
          · cases h
          · split at h
            · cases h
            · simp only [Outcome.returned.injEq, Prod.mk.injEq] at h
              exact Or.inr ⟨by rw [← h.1.1]; simp, h.1.2.symm⟩

/-- C9. No partial output: when `Obfuscate` fails at creating the temporary
directory, at writing the evaluator program, at running it or at decoding its
output, it returns that error with no bytes; the callback of
`ObfuscateStrings` returns an error of `Obfuscate` without writing the file;
and whenever the callback writes the file, the bytes written are the buffer
`Obfuscate` returned with a nil error. -/
theorem no_partial_output (GoExtension : String) (rand : Nat → Nat) (k : Nat) (f : FileEntry) :
    (∀ (s : stringObfuscator) (e : GoError),
        (f.env.TempDir = some e
          ∨ (f.env.TempDir = none ∧ f.env.WriteFile (evalSource (sortNodes s.Nodes)) = some e)
          ∨ (f.env.TempDir = none ∧ f.env.WriteFile (evalSource (sortNodes s.Nodes)) = none
              ∧ ∃ out, f.env.Run (evalSource (sortNodes s.Nodes)) = (out, some e))
          ∨ (f.env.TempDir = none ∧ f.env.WriteFile (evalSource (sortNodes s.Nodes)) = none
              ∧ ∃ out, f.env.Run (evalSource (sortNodes s.Nodes)) = (out, none)
                ∧ f.env.Decode out = .error e)) →
        Obfuscate f.env rand k s = .returned ((none, some e), k))
      ∧ (∀ (decls : List Node) (contents : List Nat) (b : Option (List Nat)) (e : GoError)
          (k2 : Nat),
          f.walkErr = none → f.ext = GoExtension → f.isDir = false → f.constsToVar = none →
          f.parse = .ok decls → f.readFile = .ok contents →
          Obfuscate f.env rand k (WalkList { Contents := contents, Nodes := [] } decls) =
            .returned ((b, some e), k2) →
          perFile GoExtension rand k f = .returned { err := some e, written := none, k := k2 })
      ∧ (∀ (r : StepResult) (bytes : List Nat),
          perFile GoExtension rand k f = .returned r → r.written = some bytes →
          ∃ decls contents, f.parse = .ok decls ∧ f.readFile = .ok contents
            ∧ Obfuscate f.env rand k (WalkList { Contents := contents, Nodes := [] } decls) =
                .returned ((some bytes, none), r.k)) := by
  refine ⟨?_, ?_, ?_⟩
  · intro s e h
    unfold Obfuscate
    rcases h with h | ⟨h1, h2⟩ | ⟨h1, h2, out, h3⟩ | ⟨h1, h2, out, h3, h4⟩
    · simp only [h]
    · simp only [h1, h2]
    · simp only [h1, h2, h3]
    · simp only [h1, h2, h3, h4]
  · intro decls contents b e k2 hw hext hdir hc hp hr hO
    unfold perFile
    simp [hw, hext, hdir, hc, hp, hr, hO]
  · intro r bytes hr hwr
    unfold perFile at hr
    split at hr
    · cases hr; cases hwr
    · split at hr
      · cases hr; cases hwr
      · split at hr
        · cases hr; cases hwr
        · split at hr
          · cases hr; cases hwr
          · rename_i decls hparse
            split at hr
            · cases hr; cases hwr
            · rename_i contents hread
              dsimp only at hr
              split at hr
              · cases hr
              · cases hr; cases hwr
              · rename_i k2 hO
                exact absurd hO (by
                  intro h
                  rcases Obfuscate_error_no_bytes _ _ _ _ _ _ _ h with ⟨_, h2⟩ | ⟨h1, _⟩
                  · exact h2 rfl
                  · exact h1 rfl)
              · rename_i newCode k2 hO
                cases hr
                simp only [Option.some.injEq] at hwr
                subst hwr
                exact ⟨decls, contents, hparse, hread, hO⟩

/-- Use of C9 on a file whose evaluator program fails to run. -/
theorem no_partial_output_witness :
    failingFile.env.Run (evalSource (sortNodes [])) = ([], some "exit status 1") ∧
      Obfuscate failingFile.env (fun _ => 0) 0 { Contents := txt "package p\n", Nodes := [] } =
        .returned ((none, some "exit status 1"), 0) :=
  ⟨rfl, (no_partial_output ".go" (fun _ => 0) 0 failingFile).1
    { Contents := txt "package p\n", Nodes := [] } "exit status 1"
    (Or.inr (Or.inr (Or.inl ⟨rfl, rfl, [], rfl⟩)))⟩

/-! ## The literal selector -/

mutual
theorem Walk_eq_sites : ∀ (n : Node) (s : stringObfuscator),
    Walk s n = { s with Nodes := s.Nodes ++ (sites n).map Prod.snd }
  | .basicLit lit, s => by
    simp only [Walk, Visit, sites]
    split <;> simp
  | .genDecl tok cs, s => by
    simp only [Walk, Visit, sites]
    split
    · simp
    · simp [WalkList_eq_sites cs s 0]
  | .structType cs, s => by
    simp [Walk, Visit, sites]
  | .other cs, s => by
    simp [Walk, Visit, sites, WalkList_eq_sites cs s 0]
theorem WalkList_eq_sites : ∀ (cs : List Node) (s : stringObfuscator) (i : Nat),
    WalkList s cs = { s with Nodes := s.Nodes ++ (sitesList i cs).map Prod.snd }
  | [], s, i => by
    simp [WalkList, sitesList]
  | c :: cs, s, i => by
    rw [WalkList, Walk_eq_sites c s, WalkList_eq_sites cs _ (i + 1)]
    simp [sitesList, List.map_map, Function.comp_def]
end

theorem Eligible_nil (n : Node) (lit : BasicLit) :
    Eligible n [] lit ↔ n = .basicLit lit ∧ lit.Kind = Token.STRING := by
  unfold Eligible
  constructor
  · rintro ⟨h1, h2, _⟩
    simp only [nodeAt, Option.some.injEq] at h1
    exact ⟨h1, h2⟩
  · rintro ⟨h1, h2⟩
    refine ⟨by simp [nodeAt, h1], h2, ?_⟩
    intro q r a hqr hr _
    have : r = [] := (List.append_eq_nil.1 hqr.symm).2
    exact absurd this hr

theorem Eligible_cons (n : Node) (j : Nat) (p : List Nat) (lit : BasicLit) :
    Eligible n (j :: p) lit ↔
      n.shields = false ∧ ∃ c, n.children[j]? = some c ∧ Eligible c p lit := by
  unfold Eligible
  constructor
  · rintro ⟨h1, h2, h3⟩
    have hs : n.shields = false := h3 [] (j :: p) n rfl (by simp) rfl
    simp only [nodeAt] at h1
    cases hc : n.children[j]? with
    | none => rw [hc] at h1; cases h1
    | some c =>
      rw [hc] at h1
      refine ⟨hs, c, rfl, h1, h2, ?_⟩
      intro q r a hqr hr ha
      refine h3 (j :: q) r a (by rw [hqr]; rfl) hr ?_
      simp only [nodeAt, hc]
      exact ha
  · rintro ⟨hs, c, hc, h1, h2, h3⟩
    refine ⟨by simp only [nodeAt, hc]; exact h1, h2, ?_⟩
    intro q r a hqr hr ha
    cases q with
    | nil =>
      simp only [nodeAt, Option.some.injEq] at ha
      rw [← ha]; exact hs
    | cons j2 q2 =>
      simp only [List.cons_append, List.cons.injEq] at hqr
      obtain ⟨hj, hp⟩ := hqr
      subst hj
      simp only [nodeAt, hc] at ha
      exact h3 q2 r a hp hr ha

mutual
theorem mem_sites : ∀ (n : Node) (p : List Nat) (lit : BasicLit),
    (p, lit) ∈ sites n ↔ Eligible n p lit
  | .basicLit lit0, p, lit => by
    cases p with
    | nil =>
      rw [Eligible_nil]
      simp only [sites]
      split
      · rename_i hk
        simp only [List.mem_singleton, Prod.mk.injEq, true_and, Node.basicLit.injEq]
        constructor
        · intro h; subst h; exact ⟨rfl, hk⟩
        · intro h; exact h.1.symm
      · rename_i hk
        simp only [List.not_mem_nil, Node.basicLit.injEq, false_iff, not_and]
        intro h; subst h; exact hk
    | cons j p =>
      rw [Eligible_cons]
      simp only [sites, Node.children]
      split <;> simp
  | .genDecl tok cs, p, lit => by
    cases p with
    | nil =>
      rw [Eligible_nil]
      simp only [sites]
      split
      · simp
      · simp only [mem_sitesList cs 0 [] lit]
        simp
    | cons j p =>
      rw [Eligible_cons]
      simp only [sites, Node.shields, Node.children]
      split
      · rename_i h; simp [h]
      · rename_i h
        simp only [mem_sitesList cs 0 (j :: p) lit, h, decide_False, true_and]
        constructor
        · rintro ⟨j2, c, p2, h1, h2, h3⟩
          simp only [Nat.zero_add, List.cons.injEq] at h1
          obtain ⟨rfl, rfl⟩ := h1
          exact ⟨c, h2, h3⟩
        · rintro ⟨c, h2, h3⟩
          exact ⟨j, c, p, by simp, h2, h3⟩
  | .structType cs, p, lit => by
    cases p with
    | nil => rw [Eligible_nil]; simp [sites]
    | cons j p => rw [Eligible_cons]; simp [sites, Node.shields]
  | .other cs, p, lit => by
    cases p with
    | nil =>
      rw [Eligible_nil]
      simp only [sites, mem_sitesList cs 0 [] lit]
      simp
    | cons j p =>
      rw [Eligible_cons]
      simp only [sites, Node.shields, Node.children, mem_sitesList cs 0 (j :: p) lit, true_and]
      constructor
      · rintro ⟨j2, c, p2, h1, h2, h3⟩
        simp only [Nat.zero_add, List.cons.injEq] at h1
        obtain ⟨rfl, rfl⟩ := h1
        exact ⟨c, h2, h3⟩
      · rintro ⟨c, h2, h3⟩
        exact ⟨j, c, p, by simp, h2, h3⟩
theorem mem_sitesList : ∀ (cs : List Node) (i : Nat) (p : List Nat) (lit : BasicLit),
    (p, lit) ∈ sitesList i cs ↔
      ∃ j c p2, p = (i + j) :: p2 ∧ cs[j]? = some c ∧ Eligible c p2 lit
  | [], i, p, lit => by
    simp [sitesList]
  | c :: cs, i, p, lit => by
    simp only [sitesList, List.mem_append, List.mem_map, Prod.mk.injEq, Prod.exists,
      mem_sitesList cs (i + 1) p lit]
    constructor
    · rintro (⟨p2, l2, h1, h2, h3⟩ | ⟨j, c2, p2, h1, h2, h3⟩)
      · subst h3
        exact ⟨0, c, p2, by simp [h2], by simp, (mem_sites c p2 l2).1 h1⟩
      · exact ⟨j + 1, c2, p2, by rw [h1]; congr 1; omega, by simpa using h2, h3⟩
    · rintro ⟨j, c2, p2, h1, h2, h3⟩
      cases j with
      | zero =>
        simp only [List.getElem?_cons_zero, Option.some.injEq] at h2
        subst h2
        exact Or.inl ⟨p2, lit, (mem_sites c p2 lit).2 h3, by simp [h1], rfl⟩
      | succ j =>
        simp only [List.getElem?_cons_succ] at h2
        exact Or.inr ⟨j, c2, p2, by rw [h1]; congr 1; omega, h2, h3⟩
end

theorem sitesList_head (cs : List Node) (i : Nat) :
    ∀ p ∈ (sitesList i cs).map Prod.fst, ∃ j p2, p = (i + j) :: p2 := by
  intro p hp
  obtain ⟨⟨p1, lit⟩, hmem, rfl⟩ := List.mem_map.1 hp
  obtain ⟨j, _, p2, h1, _, _⟩ := (mem_sitesList cs i p1 lit).1 hmem
  exact ⟨j, p2, h1⟩

mutual
theorem sites_nodup : ∀ (n : Node), ((sites n).map Prod.fst).Nodup
  | .basicLit lit => by
    simp only [sites]
    split <;> simp
  | .genDecl tok cs => by
    simp only [sites]
    split
    · simp
    · exact sitesList_nodup cs 0
  | .structType cs => by
    simp [sites]
  | .other cs => by
    simp only [sites]
    exact sitesList_nodup cs 0
theorem sitesList_nodup : ∀ (cs : List Node) (i : Nat), ((sitesList i cs).map Prod.fst).Nodup
  | [], i => by
    simp [sitesList]
  | c :: cs, i => by
    simp only [sitesList, List.map_append, List.map_map]
    refine List.nodup_append.2 ⟨?_, sitesList_nodup cs (i + 1), ?_⟩
    · have h := sites_nodup c
      have e : (sites c).map (Prod.fst ∘ fun pl => (i :: pl.1, pl.2)) =
          ((sites c).map Prod.fst).map (fun p => i :: p) := by
        simp [List.map_map, Function.comp_def]
      rw [e]
      exact h.map (fun a b hab => by simpa using hab)
    · intro p hp1 hp2
      obtain ⟨j, p2, h2⟩ := sitesList_head cs (i + 1) p hp2
      obtain ⟨pl, _, h1⟩ := List.mem_map.1 hp1
      simp only [Function.comp_apply] at h1
      rw [h2] at h1
      simp only [List.cons.injEq] at h1
      omega
end

theorem between_split (data : List Nat) (a b c : Nat) (h1 : a ≤ b) (h2 : b ≤ c) :
    between data a c = between data a b ++ between data b c := by
  unfold between
  have e1 : c - a = (b - a) + (c - b) := by omega
  have e2 : (data.drop a).drop (b - a) = data.drop b := by
    rw [List.drop_drop]; congr 1; omega
  rw [e1, List.take_add, e2]

theorem drop_split (data : List Nat) (a b : Nat) (h : a ≤ b) :
    data.drop a = between data a b ++ data.drop b := by
  unfold between
  have e2 : (data.drop a).drop (b - a) = data.drop b := by
    rw [List.drop_drop]; congr 1; omega
  rw [← e2, List.take_append_drop]

/-- The bytes of a span that meets no replaced span stand in the spliced buffer. -/
theorem spliced_keeps (data : List Nat) (spans : List (Nat × Nat)) (xs : List (List Nat))
    (cur a b : Nat) (hcur : cur ≤ a) (hab : a ≤ b)
    (hno : ∀ se ∈ spans, b ≤ se.1 ∨ se.2 ≤ a) :
    between data a b <:+: spliced data cur spans xs := by
  have base : between data a b <:+: data.drop cur := by
    refine ⟨between data cur a, data.drop b, ?_⟩
    rw [drop_split data cur a hcur, drop_split data a b hab, List.append_assoc]
  induction spans generalizing cur xs with
  | nil => simpa [spliced] using base
  | cons se spans ih =>
    obtain ⟨s, e⟩ := se
    cases xs with
    | nil => simpa [spliced] using base
    | cons x xs =>
      simp only [spliced]
      rcases hno (s, e) (List.mem_cons_self _ _) with h | h
      · simp only at h
        refine ⟨between data cur a, between data b s ++ (x ++ spliced data e spans xs), ?_⟩
        rw [between_split data cur a s hcur (by omega), between_split data a b s hab h]
        simp only [List.append_assoc]
      · simp only at h
        have hbase : between data a b <:+: data.drop e := by
          refine ⟨between data e a, data.drop b, ?_⟩
          rw [drop_split data e a h, drop_split data a b hab, List.append_assoc]
        obtain ⟨p, q, hpq⟩ := ih xs e h (fun se hse => hno se (List.mem_cons_of_mem _ hse)) hbase
        refine ⟨between data cur s ++ x ++ p, q, ?_⟩
        rw [← hpq]
        simp only [List.append_assoc]

set_option maxRecDepth 100000 in
/-- On the sample declarations only the literal of the function body is recorded. -/
theorem WalkList_sampleDecls :
    (WalkList { Contents := [], Nodes := [] } sampleDecls).Nodes =
      [{ ValuePos := 95, EndPos := 99, Kind := Token.STRING, Value := txt "\"hi\"" }] := by
  decide

/-- C3. Selection and exclusion: walking a node with `Visit` leaves
`Contents` as it is and appends to the recorded nodes the literals of `sites`,
in source order; their paths are pairwise different, so each is recorded
once; and a literal at a path is among them if and only if it is a basic
literal of kind `STRING` and no node strictly above it, at any depth, is a
general declaration with token `CONST` or `IMPORT` or a struct type.  Hence
walking an import declaration, a constant group or a struct type records
nothing; the same holds for the list of declarations of a file; and the
bytes of a span that meets the span of no recorded site, as those of a
literal that is not a site, stand unchanged in the spliced buffer. -/
theorem Walk_selects (s : stringObfuscator) (root : Node) :
    (Walk s root).Contents = s.Contents
      ∧ (Walk s root).Nodes = s.Nodes ++ (sites root).map Prod.snd
      ∧ ((sites root).map Prod.fst).Nodup
      ∧ (∀ p lit, (p, lit) ∈ sites root ↔ Eligible root p lit)
      ∧ (root.shields = true → (Walk s root).Nodes = s.Nodes)
      ∧ (∀ decls : List Node,
          (WalkList s decls).Nodes = s.Nodes ++ (sitesList 0 decls).map Prod.snd
            ∧ ((sitesList 0 decls).map Prod.fst).Nodup
            ∧ ∀ p lit, (p, lit) ∈ sitesList 0 decls ↔
                ∃ j c p2, p = j :: p2 ∧ decls[j]? = some c ∧ Eligible c p2 lit)
      ∧ (∀ (xs : List (List Nat)) (a b : Nat), a ≤ b →
          (∀ n ∈ sortNodes (Walk s root).Nodes, b ≤ (span n).1 ∨ (span n).2 ≤ a) →
          between (Walk s root).Contents a b <:+:
            spliced (Walk s root).Contents 0 ((sortNodes (Walk s root).Nodes).map span) xs) := by
  refine ⟨?_, ?_, sites_nodup root, mem_sites root, ?_, ?_, ?_⟩
  · rw [Walk_eq_sites]
  · rw [Walk_eq_sites]
  · intro hsh
    rw [Walk_eq_sites]
    cases root with
    | basicLit lit => simp [Node.shields] at hsh
    | genDecl tok cs =>
      simp only [Node.shields, decide_eq_true_eq] at hsh
      simp [sites, hsh]
    | structType cs => simp [sites]
    | other cs => simp [Node.shields] at hsh
  · intro decls
    refine ⟨by rw [WalkList_eq_sites decls s 0], sitesList_nodup decls 0, ?_⟩
    intro p lit
    rw [mem_sitesList]
    simp only [Nat.zero_add]
  · intro xs a b hab hno
    refine spliced_keeps _ _ xs 0 a b (Nat.zero_le _) hab ?_
    intro se hse
    obtain ⟨n, hn, rfl⟩ := List.mem_map.1 hse
    exact hno n hn

/-- Use of C3 on a constant group: nothing is recorded. -/
theorem Walk_selects_witness :
    (Node.genDecl Token.CONST [.other [.basicLit
        { ValuePos := 40, EndPos := 43, Kind := Token.STRING, Value := txt "\"c\"" }]]).shields = true ∧
      (Walk { Contents := [], Nodes := [] } (Node.genDecl Token.CONST [.other [.basicLit
        { ValuePos := 40, EndPos := 43, Kind := Token.STRING, Value := txt "\"c\"" }]])).Nodes = [] :=
  ⟨rfl, (Walk_selects { Contents := [], Nodes := [] } (Node.genDecl Token.CONST [.other [.basicLit
    { ValuePos := 40, EndPos := 43, Kind := Token.STRING, Value := txt "\"c\"" }]])).2.2.2.2.1 rfl⟩

end Gobfuscate
